import Mathlib

/-!
Verification of the build-file evaluation engine in
`src/com/facebook/buck/parser/buck.py`.

The development shallowly embeds the glob subsystem (pure pattern matcher,
filesystem glob walker, `glob` primitive), the symlink-aware directory walk,
and the `BuildFileProcessor` evaluation engine (contexts, primitives,
include processing, evaluation cache, context stack), and proves or refutes
the specification's claims about them.

Paths are represented as lists of `/`-separated segments where convenient
(`split_path` mediates), and the filesystem is an explicit structure so that
every definition is executable on concrete inputs.
-/

namespace Buck

/-! ## Shell pattern matching (`fnmatch.fnmatch`)

CPython's `fnmatch` translates a shell pattern to a regex:
`*` matches any sequence of characters, `?` any single character, and
`[...]` a character class (leading `!` negates; a `]` directly after the
opening bracket, or after `!`, is a literal member; `a-b` is a range; an
unterminated `[` is a literal `[`).  We implement the same semantics
directly as a recursive matcher. -/

/-- Membership of a character in the body of a character class,
with `a-b` ranges and literal members. -/
def classMatch (c : Char) : List Char → Bool
  | x :: '-' :: y :: rest => (decide (x ≤ c) && decide (c ≤ y)) || classMatch c rest
  | x :: rest => (c = x) || classMatch c rest
  | [] => false

/-- Character-class membership including the leading `!` negation. -/
def inClass (c : Char) (stuff : List Char) : Bool :=
  match stuff with
  | '!' :: rest => !(classMatch c rest)
  | _ => classMatch c stuff

/-- Scan for the `]` that closes a character class, as CPython's
`fnmatch.translate` does: a `!` in first position and a `]` directly after
it (or in first position) are part of the class body.  Returns the class
body and the remainder of the pattern, or `none` when the class is
unterminated. -/
def scanClass (cs : List Char) : Option (List Char × List Char) :=
  let skipBang : Nat := if cs.head? = some '!' then 1 else 0
  let skipBracket : Nat := if (cs.drop skipBang).head? = some ']' then 1 else 0
  let start := skipBang + skipBracket
  match (cs.drop start).findIdx? (· = ']') with
  | none => none
  | some k => some (cs.take (start + k), cs.drop (start + k + 1))

/-- Matching a pattern against the empty string: every remaining
pattern character must be `*`. -/
def fnmatchStarOnly : List Char → Bool
  | [] => true
  | '*' :: ps => fnmatchStarOnly ps
  | _ => false

/-- One step of shell-pattern matching against a nonempty string whose
head is `c`; `recNext` matches an arbitrary pattern against the string's
tail.  (The matcher is written as a nested structural recursion — outer
on the string, inner on the pattern — so that it evaluates by
reduction; it computes the same function as the usual lexicographic
recursion.) -/
def fnmatchStep (c : Char) (recNext : List Char → Bool) : List Char → Bool
  | [] => false
  | p :: ps =>
    if p = '*' then fnmatchStep c recNext ps || recNext (p :: ps)
    else if p = '?' then recNext ps
    else if p = '[' then
      (match scanClass ps with
       | none => (c = '[') && recNext ps
       | some (stuff, rest) => inClass c stuff && recNext rest)
    else (c = p) && recNext ps

/-- Shell-pattern matching: string (first argument) against
pattern (second argument). -/
def fnmatchGo : List Char → List Char → Bool
  | [], p => fnmatchStarOnly p
  | c :: t, p => fnmatchStep c (fnmatchGo t) p

/-- `fnmatch.fnmatch(name, pattern)`: does `name` match the shell
pattern `pattern`? -/
def fnmatch (name pattern : String) : Bool :=
  fnmatchGo name.toList pattern.toList

/-- `glob.has_magic`: the pattern contains a shell metacharacter. -/
def has_magic (s : String) : Bool :=
  s.toList.any (fun c => c = '*' || c = '?' || c = '[')

/-! ## Path tokenization -/

/-- Split a character list at every `'/'` (Python `str.split('/')`:
the empty string yields `['']`). -/
def splitSlash : List Char → List (List Char)
  | [] => [[]]
  | c :: rest =>
    if c = '/' then [] :: splitSlash rest
    else
      match splitSlash rest with
      | s :: ss => (c :: s) :: ss
      | [] => [[c]]

/-- `split_path`: splits `/foo/bar/baz.java` into
`['', 'foo', 'bar', 'baz.java']`. -/
def split_path (path : String) : List String :=
  (splitSlash path.toList).map String.mk

/-- `s and s[0] == c`: the string is nonempty and starts with the
given character. -/
def headIs (c : Char) (s : String) : Bool :=
  match s.toList with
  | c' :: _ => c' = c
  | [] => false

/-- `well_formed_tokens`: a tokenized path contains no empty token. -/
def well_formed_tokens (tokens : List String) : Bool :=
  tokens.all (fun t => t ≠ "")

/-! ## Pure pattern matcher (`glob_match_internal` / `glob_match`) -/

/-- Matching tokens against an empty chunk list: in the source, a
non-empty token list matches the empty path only while every remaining
token is the recursive wildcard `**`. -/
def gmiEmpty (include_dotfiles : Bool) : List String → Bool
  | [] => true
  | token :: next_tokens =>
    if token = "**" then gmiEmpty include_dotfiles next_tokens else false

/-- One step of the pure pattern matcher against a nonempty chunk list
whose head is `chunk`; `recNext` matches an arbitrary token list against
the remaining chunks.  (Nested structural recursion — outer on chunks,
inner on tokens — computing the same function as the source's
lexicographic recursion.) -/
def gmiStep (include_dotfiles : Bool) (chunk : String)
    (recNext : List String → Bool) : List String → Bool
  | [] => false
  | token :: next_tokens =>
    if ¬ has_magic token then
      (token = chunk) && recNext next_tokens
    else if token = "**" then
      gmiStep include_dotfiles chunk recNext next_tokens ||
        (if !include_dotfiles && headIs '.' chunk then false
         else recNext (token :: next_tokens))
    else
      if !include_dotfiles && !(headIs '.' token) && headIs '.' chunk
      then false
      else fnmatch chunk token && recNext next_tokens

/-- `glob_match_internal` with the chunk list first. -/
def gmiChunks (include_dotfiles : Bool) :
    List String → List String → Bool
  | [], tokens => gmiEmpty include_dotfiles tokens
  | chunk :: next_chunks, tokens =>
    gmiStep include_dotfiles chunk
      (gmiChunks include_dotfiles next_chunks) tokens

/-- `glob_match_internal(include_dotfiles, tokens, chunks)`. -/
def glob_match_internal (include_dotfiles : Bool)
    (tokens chunks : List String) : Bool :=
  gmiChunks include_dotfiles chunks tokens

/-- `glob_match(pattern, path, include_dotfiles)`. -/
def glob_match (pattern path : String) (include_dotfiles : Bool := false) :
    Bool :=
  glob_match_internal include_dotfiles (split_path pattern) (split_path path)

example : glob_match "*.py" "a.py" = true := by decide
example : glob_match "*.py" ".a.py" false = false := by decide
example : glob_match "*.py" ".a.py" true = true := by decide
example : glob_match "**" "" = true := by decide
example : glob_match "**" "a/b/c" = true := by decide

/-! ## Filesystem model

Relative paths under the glob root are lists of segments.  The
filesystem is a structure of the host facilities the walker consults:
directory listing, existence/file tests (on root-relative paths), and
symlink detection / `realpath` (on the absolute, `realpath`-normalized
path strings that `glob_walk`'s `normpath_join` builds). -/

structure FS where
  /-- `os.listdir` at a root-relative directory (order = enumeration
  order on the host). -/
  names : List String → List String
  /-- `os.path.lexists(os.path.join(root, p))`. -/
  lexists : List String → Bool
  /-- `os.path.isfile(os.path.join(root, p))`. -/
  isfile : List String → Bool
  /-- `os.path.isdir(os.path.join(root, p))`. -/
  isdir : List String → Bool
  /-- `os.path.islink` on a normalized absolute path string. -/
  islink : String → Bool
  /-- `os.path.realpath` on such a string. -/
  realpath : String → String
  /-- `os.path.realpath(root)`. -/
  rootReal : String

/-- Join root-relative segments with `/` (relative counterpart of the
path strings the source manipulates). -/
def joinSegs : List String → String
  | [] => ""
  | [s] => s
  | s :: rest => s ++ "/" ++ joinSegs rest

/-- Strict character-lexicographic comparison (Python 2 `str` `<` on
ASCII strings). -/
def charListLt : List Char → List Char → Bool
  | [], [] => false
  | [], _ :: _ => true
  | _ :: _, [] => false
  | a :: as, b :: bs =>
    if a < b then true else if b < a then false else charListLt as bs

/-- `a < b` on strings. -/
def strLt (a b : String) : Bool := charListLt a.toList b.toList

/-! ## `glob.iglob` (CPython 2.7 `glob` module)

`glob_walk` hands `glob.iglob` the multi-segment pattern
`path_join(path, token)`, so the model follows the module's actual
recursion: a pattern without metacharacters is an existence test; a
pattern with a metacharacter splits into `dirname`/`basename`, expands
a magic `dirname` recursively, and expands the basename per directory
with `glob1` (magic basename: listing + dot filter + `fnmatch`) or
`glob0` (plain basename: existence test). -/

/-- Any segment of the pattern contains a metacharacter. -/
def hasMagicPath (p : List String) : Bool := p.any has_magic

/-- `glob.glob1(dirname, pattern)`: list the directory, drop dot-led
names unless the pattern itself is dot-led, keep the `fnmatch`es. -/
def glob1 (fs : FS) (dir : List String) (pattern : String) : List String :=
  let ns := fs.names dir
  let ns := if ¬ headIs '.' pattern
            then ns.filter (fun n => ¬ headIs '.' n) else ns
  ns.filter (fun n => fnmatch n pattern)

/-- `glob.glob0(dirname, basename)`: existence test for a literal
basename. -/
def glob0 (fs : FS) (dir : List String) (basename : String) : List String :=
  if basename = "" then (if fs.isdir dir then [basename] else [])
  else if fs.lexists (dir ++ [basename]) then [basename] else []

/-- `glob.iglob`, on the reversed segment list of the (root-relative)
pattern so the `dirname` recursion is structural. -/
def iglobRev (fs : FS) : List String → List (List String)
  | [] => if fs.lexists [] then [[]] else []
  | basename :: revdir =>
    if ¬ hasMagicPath (basename :: revdir) then
      (if fs.lexists (revdir.reverse ++ [basename])
       then [revdir.reverse ++ [basename]] else [])
    else
      let dirs :=
        if hasMagicPath revdir then iglobRev fs revdir
        else [revdir.reverse]
      let expand :=
        if has_magic basename then glob1 fs else glob0 fs
      dirs.foldr (fun d acc => (expand d basename).map (fun n => d ++ [n]) ++ acc) []

/-- `glob.iglob(os.path.join(root, joinSegs p))`, relativized. -/
def iglobPath (fs : FS) (p : List String) : List (List String) :=
  iglobRev fs p.reverse

/-- `String.drop 1` by characters. -/
def strDrop1 (s : String) : String := String.mk (s.toList.drop 1)

/-- `re.sub(r'/\*', '/.*', pattern, count=1)` at segment level: insert a
`.` before the first segment (after the first) that starts with `*`. -/
def rewriteFirstStar : List String → Option (List String)
  | [] => none
  | s :: rest =>
    if headIs '*' s then some (("." ++ s) :: rest)
    else (rewriteFirstStar rest).map (s :: ·)

/-- `re.sub(r'/\?', '/.', pattern, count=1)` at segment level: replace
the leading `?` of the first such segment (after the first) by `.`. -/
def rewriteFirstQ : List String → Option (List String)
  | [] => none
  | s :: rest =>
    if headIs '?' s then some (("." ++ strDrop1 s) :: rest)
    else (rewriteFirstQ rest).map (s :: ·)

/-- The `special_rules_for_dots` pass of the source's `iglob` wrapper:
the four rewrite rules `^\*→.*`, `^\?→.`, `/\*→/.*`, `/\?→/.` tried in
order, first change wins (`re.sub` with `count=1`; segments contain no
`/`, so `/\*` matches exactly at a non-first segment starting with
`*`). -/
def specialForDots : List String → Option (List String)
  | [] => none
  | s0 :: rest =>
    if headIs '*' s0 then some (("." ++ s0) :: rest)
    else if headIs '?' s0 then some (("." ++ strDrop1 s0) :: rest)
    else
      match rewriteFirstStar rest with
      | some rest' => some (s0 :: rest')
      | none => (rewriteFirstQ rest).map (s0 :: ·)

/-- The `iglob` closure defined inside `glob_walk`: the plain
`glob.iglob` pass, followed (when `include_dotfiles`) by a second pass
on the dot-rewritten pattern. -/
def iglobBuck (fs : FS) (include_dotfiles : Bool) (pattern : List String) :
    List (List String) :=
  iglobPath fs pattern ++
    (if include_dotfiles then
       match specialForDots pattern with
       | some special => iglobPath fs special
       | none => []
     else [])

/-! ## Filesystem glob walker (`glob_walk_internal` / `glob_walk`) -/

/-- `path_join(path, element)` with `None` encoding the empty path. -/
def path_join (path : Option (List String)) (element : String) :
    List String :=
  match path with
  | none => [element]
  | some p => p ++ [element]

/-- The `isresult` closure: `path is not None` and
`os.path.isfile(os.path.join(root, path))`. -/
def isresult (fs : FS) : Option (List String) → Bool
  | none => false
  | some p => fs.isfile p

/-- The `normpath_join` closure: append the element to the normalized
path; resolve through `realpath` when the result is a symlink. -/
def normpath_join (fs : FS) (normpath element : String) : String :=
  let newpath := normpath ++ "/" ++ element
  if fs.islink newpath then fs.realpath newpath else newpath

/-- `child[path_and_sep_len:]`: the string-level suffix of the child
path after the already-constructed path plus one separator. -/
def childSuffix (path : Option (List String)) (child : List String) :
    String :=
  let len := match path with
    | none => 0
    | some p => (joinSegs p).toList.length + 1
  String.mk ((joinSegs child).toList.drop len)

/-- One child step of the walker's descent loop: run the recursive
walk `F` on the child against the accumulated visited set and append
its yields. -/
def gwiStep (F : List String → List (List String × String) →
      List (List String) × List (List String × String))
    (acc : List (List String) × List (List String × String))
    (child : List String) :
    List (List String) × List (List String × String) :=
  (acc.1 ++ (F child acc.2).1, (F child acc.2).2)

/-- `glob_walk_internal`, fuel-bounded, threading the shared mutable
`visited` set (keys `(tuple(tokens), normpath)`).  Returns the yielded
paths in order together with the final visited set; exhausted fuel
yields nothing further. -/
def gwi (fs : FS) (include_dotfiles : Bool) :
    Nat → List String → Option (List String) → String →
    List (List String × String) →
    List (List String) × List (List String × String)
  | 0, _, _, _, visited => ([], visited)
  | Nat.succ n, tokens, path, normpath, visited =>
    match tokens with
    | [] =>
      ((if isresult fs path then [path.getD []] else []), visited)
    | token :: next_tokens =>
      -- special base case of ['**']: yield the current path itself
      let base1 :=
        if token = "**" && next_tokens.isEmpty && isresult fs path
        then [path.getD []] else []
      let key := (token :: next_tokens, normpath)
      if visited.contains key then (base1, visited)
      else
        let visited := key :: visited
        if token = "**" then
          let r1 :=
            if next_tokens.isEmpty then ([], visited)
            else gwi fs include_dotfiles n next_tokens path normpath visited
          let r2 :=
            (iglobBuck fs include_dotfiles (path_join path "*")).foldl
              (gwiStep (fun child vis =>
                gwi fs include_dotfiles n (token :: next_tokens)
                  (some child)
                  (normpath_join fs normpath (childSuffix path child)) vis))
              ([], r1.2)
          (base1 ++ r1.1 ++ r2.1, r2.2)
        else if next_tokens.isEmpty then
          -- optimized case: recurse with tokens = None (base case)
          let r :=
            (iglobBuck fs include_dotfiles (path_join path token)).foldl
              (gwiStep (fun child vis =>
                gwi fs include_dotfiles n [] (some child) "" vis))
              ([], visited)
          (base1 ++ r.1, r.2)
        else
          let r :=
            (iglobBuck fs include_dotfiles (path_join path token)).foldl
              (gwiStep (fun child vis =>
                gwi fs include_dotfiles n next_tokens (some child)
                  (normpath_join fs normpath (childSuffix path child)) vis))
              ([], visited)
          (base1 ++ r.1, r.2)

/-- `glob_walk(pattern, root, include_dotfiles)`: tokenize, check
well-formedness (the source `assert`s; `none` models the raised
`AssertionError`), then run the walker from the empty path with
`normpath = os.path.realpath(root)`. -/
def glob_walk (fs : FS) (pattern : String) (include_dotfiles : Bool)
    (fuel : Nat) : Option (List (List String)) :=
  let tokens := split_path pattern
  if ¬ well_formed_tokens tokens then none
  else some (gwi fs include_dotfiles fuel tokens none fs.rootReal []).fst

/-! ## The pure computation of the `glob` primitive

`glob(includes, excludes, include_dotfiles)` accumulates the walker's
yields for every include pattern into a set, drops every path matched
by some exclude pattern under `glob_match` with the same dotfile flag,
and sorts.  (The context-kind check of the primitive itself is modelled
with the processor, below.) -/

/-- `set.add`: append if absent. -/
def addSet (l : List (List String)) (y : List String) :
    List (List String) :=
  if l.contains y then l else l ++ [y]

/-- Ascending insertion w.r.t. a boolean strict order. -/
def insertByLt {α : Type} (lt : α → α → Bool) (x : α) : List α → List α
  | [] => [x]
  | y :: ys => if lt y x then y :: insertByLt lt x ys else x :: y :: ys

/-- Paths compare as their joined strings, as the source sorts path
strings. -/
def pathLt (a b : List String) : Bool := strLt (joinSegs a) (joinSegs b)

/-- `list.sort()` on path strings, as insertion sort. -/
def sortPaths (l : List (List String)) : List (List String) :=
  l.foldr (insertByLt pathLt) []

/-- The exclusion test: some exclude pattern `glob_match`es the path
under the same dotfile flag. -/
def excluded (excludes : List String) (include_dotfiles : Bool)
    (p : List String) : Bool :=
  excludes.any (fun e => glob_match e (joinSegs p) include_dotfiles)

/-- One step of the include-pattern loop of the `glob` primitive:
walk one pattern and add its yields to the accumulated set (`none`
once any pattern has raised). -/
def globStep (fs : FS) (include_dotfiles : Bool) (fuel : Nat)
    (acc : Option (List (List String))) (pattern : String) :
    Option (List (List String)) :=
  match acc, glob_walk fs pattern include_dotfiles fuel with
  | some ps, some ys => some (ys.foldl addSet ps)
  | _, _ => none

/-- The body of the `glob` primitive after its context/type asserts:
deduplicated union of `glob_walk` over the includes, minus excluded
paths, sorted.  `none` models an `AssertionError` from an ill-formed
include pattern. -/
def globCompute (fs : FS) (includes excludes : List String)
    (include_dotfiles : Bool) (fuel : Nat) :
    Option (List (List String)) :=
  match includes.foldl (globStep fs include_dotfiles fuel) (some []) with
  | none => none
  | some paths =>
    some (sortPaths
      (paths.filter (fun p => ¬ excluded excludes include_dotfiles p)))

/-! ## Symlink-aware walk (`symlink_aware_walk`)

`os.walk(base, topdown=True, followlinks=True)` composed with the
wrapper's pruning: before yielding an entry, resolve the directory's
canonical path; a directory whose canonical path was already visited is
pruned (no yield, no descent) exactly when the walked absolute path
string-extends that canonical path; otherwise it is yielded (and
re-descended) again.  The walk operates on absolute path strings, as
the prefix test in the source does. -/

/-- The walked filesystem: listing, directory test and `realpath`,
all on absolute path strings. -/
structure WFS where
  names : String → List String
  isdir : String → Bool
  realpath : String → String

/-- String prefix test (`str.startswith`). -/
def strStartsWith (s pre : String) : Bool :=
  pre.toList.isPrefixOf s.toList

/-- One yielded triple: (directory, subdirectory names, file names). -/
abbrev WalkEntry := String × List String × List String

/-- One subdirectory step of the walk: descend (via `F`) and
concatenate the yields, propagating fuel exhaustion. -/
def swalkStep (F : String → List String →
      Option (List WalkEntry × List String))
    (acc : Option (List WalkEntry × List String)) (m : String) :
    Option (List WalkEntry × List String) :=
  match acc with
  | none => none
  | some (es, vis) =>
    match F m vis with
    | none => none
    | some (es', vis') => some (es ++ es', vis')

/-- `symlink_aware_walk`, fuel-bounded; `none` when the fuel runs out
before the traversal completes.  `visited` is the set of canonical
paths already seen. -/
def swalk (wfs : WFS) :
    Nat → String → List String → Option (List WalkEntry × List String)
  | 0, _, _ => none
  | Nat.succ n, top, visited =>
    let names := wfs.names top
    let dirs := names.filter (fun m => wfs.isdir (top ++ "/" ++ m))
    let files := names.filter (fun m => ¬ wfs.isdir (top ++ "/" ++ m))
    let realdirpath := wfs.realpath top
    if visited.contains realdirpath && strStartsWith top realdirpath then
      -- prune: dirs[:] = []; continue (no yield, no descent)
      some ([], visited)
    else
      let visited :=
        if visited.contains realdirpath then visited
        else visited ++ [realdirpath]
      let entry : WalkEntry := (top, dirs, files)
      dirs.foldl
        (swalkStep (fun m vis => swalk wfs n (top ++ "/" ++ m) vis))
        (some ([entry], visited))

/-- `symlink_aware_walk(base)` from an empty visited set. -/
def symlink_aware_walk (wfs : WFS) (base : String) (fuel : Nat) :
    Option (List WalkEntry × List String) :=
  swalk wfs fuel base []

/-! ## Values of the scripting dialect -/

/-- The values build-file statements manipulate (enough for the rule
records and namespaces the engine handles). -/
inductive PyVal where
  | int : Int → PyVal
  | str : String → PyVal
  | list : List PyVal → PyVal

mutual

/-- Value equality (Python `==` on the embedded value types). -/
def pvBeq : PyVal → PyVal → Bool
  | .int a, .int b => a == b
  | .str a, .str b => a == b
  | .list a, .list b => pvListBeq a b
  | _, _ => false

/-- Elementwise list equality. -/
def pvListBeq : List PyVal → List PyVal → Bool
  | [], [] => true
  | a :: as, b :: bs => pvBeq a b && pvListBeq as bs
  | _, _ => false

end

/-- A rule record / Python dict with string keys, as its ordered entry
list (a dict entry keeps its position when its value is updated). -/
abbrev Rule := List (String × PyVal)

/-- Dict lookup. -/
def lookupStr {α : Type} : List (String × α) → String → Option α
  | [], _ => none
  | (k, v) :: rest, key => if k = key then some v else lookupStr rest key

/-- Dict store: update in place if the key exists, else append. -/
def setKey {α : Type} : List (String × α) → String → α → List (String × α)
  | [], key, v => [(key, v)]
  | (k, w) :: rest, key, v =>
    if k = key then (k, v) :: rest else (k, w) :: setKey rest key v

/-- Lookup in a registry keyed by values. -/
def lookupPV {α : Type} : List (PyVal × α) → PyVal → Option α
  | [], _ => none
  | (k, v) :: rest, key => if pvBeq k key then some v else lookupPV rest key

/-- Store in a registry keyed by values (update in place). -/
def setKeyPV {α : Type} : List (PyVal × α) → PyVal → α → List (PyVal × α)
  | [], key, v => [(key, v)]
  | (k, w) :: rest, key, v =>
    if pvBeq k key then (k, v) :: rest else (k, w) :: setKeyPV rest key v

/-! ## CPython 2.7 dict iteration order

`BuildFileProcessor.process` returns `build_env.rules.values()`.
`rules` is a CPython 2.7 dict, whose iteration order is the slot order
of its open-addressing table (string hashing, 8-slot initial table,
`i = 5*i + 1 + perturb` probing, growth at 2/3 load), not insertion
order.  The model reconstructs that order from the entry sequence. -/

/-- CPython 2.7 64-bit string hash
(`x = s[0] << 7;  x = (1000003*x) ^ c  for each c;  x ^= len;  -1 → -2`). -/
def py2hash (s : String) : Nat :=
  match s.toList with
  | [] => 0
  | c :: _ =>
    let x0 := (c.toNat <<< 7) % 2 ^ 64
    let x := s.toList.foldl
      (fun x ch => ((1000003 * x) % 2 ^ 64) ^^^ ch.toNat) x0
    let x := x ^^^ s.toList.length
    if x = 2 ^ 64 - 1 then 2 ^ 64 - 2 else x

/-- CPython 2 hash of an int that fits a machine long (`-1 → -2`),
as its 64-bit pattern. -/
def pyIntHash (i : Int) : Nat :=
  let m := (i % (2 ^ 64 : Int)).toNat
  if m = 2 ^ 64 - 1 then 2 ^ 64 - 2 else m

/-- Hashability of a value (lists are unhashable). -/
def pvHashable : PyVal → Bool
  | .list _ => false
  | _ => true

/-- CPython 2 hash of a hashable value. -/
def pvHash : PyVal → Nat
  | .str s => py2hash s
  | .int i => pyIntHash i
  | .list _ => 0

/-- Probe for a free slot: first slot `hash & mask`, then
`i = 5*i + 1 + perturb; perturb >>= 5` (all mod `2^64`), until an empty
slot; the fuel exceeds the worst case for the table sizes in use. -/
def probeFind (table : List (Option (PyVal × Rule))) :
    Nat → Nat → Nat → Option Nat
  | 0, _, _ => none
  | Nat.succ fuel, i, perturb =>
    let slot := i % table.length
    match table.get? slot with
    | some none => some slot
    | some (some _) =>
      probeFind table fuel ((5 * i + 1 + perturb) % 2 ^ 64) (perturb >>> 5)
    | none => none

/-- Place a fresh key in the table (keys are distinct: the registry
rejects duplicates, and dict value updates do not move entries). -/
def dictInsertRaw (table : List (Option (PyVal × Rule))) (k : PyVal)
    (v : Rule) : List (Option (PyVal × Rule)) :=
  let h := pvHash k
  match probeFind table (table.length + 70) h h with
  | some slot => table.set slot (some (k, v))
  | none => table

/-- Number of used slots. -/
def dictUsed (table : List (Option (PyVal × Rule))) : Nat :=
  (table.filter Option.isSome).length

/-- `dictresize` target: the smallest power of two `≥ 8` strictly
greater than `minused`. -/
def dictNewSize (minused : Nat) : Nat :=
  (List.range 64).foldl (fun acc _ => if acc > minused then acc else acc * 2) 8

/-- `dictresize`: reinsert the entries in slot-scan order into a fresh
table. -/
def dictResize (table : List (Option (PyVal × Rule))) (minused : Nat) :
    List (Option (PyVal × Rule)) :=
  let newsize := dictNewSize minused
  table.foldl
    (fun t e => match e with
      | some (k, v) => dictInsertRaw t k v
      | none => t)
    (List.replicate newsize none)

/-- `PyDict_SetItem` for a fresh key: insert, then resize when the fill
reaches 2/3 of the table. -/
def pyDictSetItem (table : List (Option (PyVal × Rule))) (k : PyVal)
    (v : Rule) : List (Option (PyVal × Rule)) :=
  let t := dictInsertRaw table k v
  if dictUsed t * 3 ≥ t.length * 2 then dictResize t (dictUsed t * 4)
  else t

/-- `dict.values()`: build the table from the entry sequence and read
the slots in order. -/
def pyDictValues (entries : List (PyVal × Rule)) : List Rule :=
  let table := entries.foldl (fun t kv => pyDictSetItem t kv.1 kv.2)
    (List.replicate 8 none)
  table.foldr
    (fun e acc => match e with
      | some (_, v) => v :: acc
      | none => acc) []

/-! ## Execution contexts and primitives -/

inductive CtxType where
  | buildFile
  | includeFile
  deriving DecidableEq, Repr

/-- Execution context.  `BuildFileContext` carries a rule registry;
`IncludeContext` has none (the source's `IncludeContext` lacks the
`rules` attribute; every primitive that touches `rules` asserts
`type == BUILD_FILE` first, so the flattened field is never read for an
include). -/
structure Ctx where
  type : CtxType
  base_path : String
  dirname : String
  includes : List String
  rules : List (PyVal × Rule)

def BuildFileContext (base_path dirname : String) : Ctx :=
  ⟨CtxType.buildFile, base_path, dirname, [], []⟩

def IncludeContext (base_path dirname : String) : Ctx :=
  ⟨CtxType.includeFile, base_path, dirname, [], []⟩

/-- The error taxonomy: each constructor stands for one raise/assert
site of the source (`assert` on context kind; the `ValueError`s of
`add_rule`, `add_deps` and `_get_include_path`; `TypeError` from `+` on
a non-list or an unhashable dict key; I/O or syntax failure opening and
compiling a file; an error raised by the file's own statements; fuel
exhaustion of the bounded model). -/
inductive BuckError where
  | usageError
  | missingName
  | duplicateRule
  | unknownRule
  | missingDeps
  | typeError
  | invalidInclude
  | assertError
  | ioError
  | evalError
  | fuelOut
  deriving DecidableEq, Repr

/-- `add_rule(rule, build_env)`. -/
def add_rule (rule : Rule) (build_env : Ctx) : Except BuckError Ctx :=
  if build_env.type ≠ CtxType.buildFile then .error .usageError
  else
    match lookupStr rule "name" with
    | none => .error .missingName
    | some rule_name =>
      if ¬ pvHashable rule_name then .error .typeError
      else if (lookupPV build_env.rules rule_name).isSome then
        .error .duplicateRule
      else
        let rule := setKey rule "buck.base_path"
          (PyVal.str build_env.base_path)
        .ok { build_env with
              rules := build_env.rules ++ [(rule_name, rule)] }

/-- `add_deps(name, deps, build_env)`. -/
def add_deps (name : PyVal) (deps : List PyVal) (build_env : Ctx) :
    Except BuckError Ctx :=
  if build_env.type ≠ CtxType.buildFile then .error .usageError
  else
    match lookupPV build_env.rules name with
    | none => .error .unknownRule
    | some rule =>
      match lookupStr rule "deps" with
      | none => .error .missingDeps
      | some (PyVal.list l) =>
        .ok { build_env with
              rules := setKeyPV build_env.rules name
                (setKey rule "deps" (PyVal.list (l ++ deps))) }
      | some _ => .error .typeError

/-- `get_base_path(build_env)`. -/
def get_base_path (build_env : Ctx) : String := build_env.base_path

/-- `get_dir_name(build_env)`. -/
def get_dir_name (build_env : Ctx) : String := build_env.dirname

/-- The `glob` primitive: context-kind assert, then the pure
computation of §`globCompute` over the filesystem rooted at the
context's directory. -/
def glob_prim (fs : FS) (includes excludes : List String)
    (include_dotfiles : Bool) (fuel : Nat) (build_env : Ctx) :
    Except BuckError (List (List String)) :=
  if build_env.type ≠ CtxType.buildFile then .error .usageError
  else
    match globCompute fs includes excludes include_dotfiles fuel with
    | none => .error .assertError
    | some paths => .ok paths

/-! ## The build file processor -/

/-- A module namespace (`module.__dict__` restricted to the bindings
the file's statements create; the injected primitives are handled
separately by the interpreter, like the source installs them fresh for
every processed file). -/
abbrev NS := List (String × PyVal)

/-- `_merge_globals(src, dst)`: copy every binding whose name does not
start with `_` and is not `include_defs`. -/
def merge_globals (src dst : NS) : NS :=
  src.foldl
    (fun d kv =>
      if ¬ headIs '_' kv.1 && kv.1 ≠ "include_defs" then
        setKey d kv.1 kv.2
      else d)
    dst

/-- The statements of the restricted build-file dialect, by their
effect: an `include_defs` call, a rule declaration (ending in
`add_rule`), an `add_deps` call, a `glob` call, a plain top-level
binding, and a failing statement (syntax or evaluation error). -/
inductive Stmt where
  | includeDefs (name : String)
  | rule (fields : Rule)
  | addDeps (name : PyVal) (deps : List PyVal)
  | globStmt (includes excludes : List String) (include_dotfiles : Bool)
  | assign (name : String) (v : PyVal)
  | raiseStmt

/-- A run configuration: the project root, the parsed contents of every
absolute file path (`none`: the file cannot be opened or compiled), the
filesystem seen by `glob` from a given search base, the processor's
run-wide implicit includes, and the walker fuel used by `glob`. -/
structure Program where
  root : String
  files : String → Option (List Stmt)
  fs : String → FS
  implicit_includes : List String
  globFuel : Nat

/-- Processor state: the evaluation cache (path →
(build context, module namespace)), the context stack, the build
environment currently bound into the primitives by
`_update_functions`, and — as ghost instrumentation for the
exactly-once claim — the ordered trace of paths whose statements
started executing. -/
structure PState where
  cache : List (String × (Ctx × NS))
  stack : List Ctx
  bound : Option Ctx
  trace : List String

/-- The fresh state of a new `BuildFileProcessor`. -/
def initState : PState := ⟨[], [], none, []⟩

/-- Interpreter result: value plus state, or error plus state. -/
inductive Res (α : Type) where
  | ok : α → PState → Res α
  | err : BuckError → PState → Res α

/-- `_push_build_env`: push and rebind the primitives. -/
def pushEnv (env : Ctx) (s : PState) : PState :=
  { s with stack := env :: s.stack, bound := some env }

/-- `_pop_build_env`: pop; rebind the primitives to the new top when
the stack is nonempty (otherwise they stay bound to the popped
context). -/
def popEnv (s : PState) : PState :=
  match s.stack with
  | [] => s
  | _ :: rest =>
    { s with stack := rest,
             bound := match rest with
                      | [] => s.bound
                      | e :: _ => some e }

/-- Mutate the context object currently executing: it is referenced
both from the top of the stack and from the primitives' binding, so
both views change. -/
def updateCur (f : Ctx → Ctx) (s : PState) : PState :=
  match s.stack with
  | [] => s
  | c :: rest => { s with stack := f c :: rest, bound := some (f c) }

/-- `set.add` on a string set. -/
def addStrSet (l : List String) (x : String) : List String :=
  if l.contains x then l else l ++ [x]

/-- `s[n:]`. -/
def strDrop (s : String) (n : Nat) : String := String.mk (s.toList.drop n)

/-- `s[:-n]`. -/
def strDropRight (s : String) (n : Nat) : String :=
  String.mk (s.toList.take (s.toList.length - n))

/-- `name.startswith('//')`. -/
def startsWith2Slash (s : String) : Bool :=
  match s.toList with
  | '/' :: '/' :: _ => true
  | _ => false

/-- `os.path.join(a, b)`. -/
def pjoin (a b : String) : String :=
  if headIs '/' b then b
  else if a = "" then b
  else if a.toList.getLast? = some '/' then a ++ b
  else a ++ "/" ++ b

/-- `os.path.dirname`. -/
def strDirname (s : String) : String :=
  let cs := s.toList
  let after := cs.reverse.takeWhile (· ≠ '/')
  if after.length = cs.length then ""
  else
    let pre := cs.take (cs.length - after.length)
    if pre.all (· = '/') then String.mk pre
    else String.mk (pre.reverse.dropWhile (· = '/')).reverse

/-- `os.path.relpath(path, root)` for a path under the root (the only
shape the engine produces). -/
def relpath (path root : String) : String :=
  if (root ++ "/").toList.isPrefixOf path.toList then
    strDrop path (root.toList.length + 1)
  else path

/-- `_get_include_path(name)`. -/
def get_include_path (root name : String) : Except BuckError String :=
  if ¬ startsWith2Slash name then .error .invalidInclude
  else .ok (pjoin root (strDrop name 2))

/-- The context `_process_include` builds for an include file. -/
def includeCtxFor (root path : String) : Ctx :=
  IncludeContext (relpath path root) (strDirname path)

/-- The context `_process_build_file` builds for a build file
(`base_path` = project-relative path with `'/' + 'BUCK'` cut off the
end). -/
def buildCtxFor (root path : String) : Ctx :=
  BuildFileContext (strDropRight (relpath path root) 5) (strDirname path)

/-- `BuildFileProcessor._process`, fuel-bounded (the fuel bounds the
include-nesting depth; `.fuelOut` stands for the interpreter giving up,
as CPython's recursion limit does on cyclic includes).

Per call: cache lookup; push the given context and rebind the
primitives; process the run-wide implicit includes; read and execute
the file's statements (recursively processing `include_defs` targets);
pop; store the (mutated) context and namespace in the cache.  Any error
propagates without popping and without caching. -/
def processPath (prog : Program) :
    Nat → Ctx → String → List String → PState → Res (Ctx × NS)
  | 0, _, _, _, s => .err .fuelOut s
  | Nat.succ n, env, path, implicit_includes, s =>
    match lookupStr s.cache path with
    | some cached => .ok cached s
    | none =>
      let s := pushEnv env s
      match processImplicits (processPath prog n) prog.root
          implicit_includes [] s with
      | .err e s' => .err e s'
      | .ok ns0 s' =>
        match prog.files path with
        | none => .err .ioError s'
        | some stmts =>
          let s' := { s' with trace := s'.trace ++ [path] }
          match execStmts (processPath prog n) prog
              implicit_includes stmts ns0 s' with
          | .err e s'' => .err e s''
          | .ok ns s'' =>
            let env' := (s''.stack.head?).getD env
            let s3 := popEnv s''
            let s4 := { s3 with cache := setKey s3.cache path (env', ns) }
            .ok (env', ns) s4
where
  /-- The implicit-include loop at the top of `_process`
  (`_process_include` is called without propagating the implicit
  includes). -/
  processImplicits (doProcess : Ctx → String → List String → PState →
      Res (Ctx × NS)) (root : String) :
      List String → NS → PState → Res NS
    | [], ns, s => .ok ns s
    | inc :: rest, ns, s =>
      match get_include_path root inc with
      | .error e => .err e s
      | .ok include_path =>
        match doProcess (includeCtxFor root include_path) include_path
            [] s with
        | .err e s' => .err e s'
        | .ok (inner_env, mod) s' =>
          let ns := merge_globals mod ns
          let s' := updateCur
            (fun c =>
              { c with includes :=
                  (inner_env.includes.foldl addStrSet
                    (addStrSet c.includes include_path)) }) s'
          processImplicits doProcess root rest ns s'
  /-- Executing the file's statement sequence. -/
  execStmts (doProcess : Ctx → String → List String → PState →
      Res (Ctx × NS)) (prog : Program) (implicit_includes : List String) :
      List Stmt → NS → PState → Res NS
    | [], ns, s => .ok ns s
    | stmt :: rest, ns, s =>
      match stmt with
      | .assign x v =>
        execStmts doProcess prog implicit_includes rest (setKey ns x v) s
      | .raiseStmt => .err .evalError s
      | .rule fields =>
        match s.bound with
        | none => .err .evalError s
        | some build_env =>
          match add_rule fields build_env with
          | .error e => .err e s
          | .ok env' =>
            execStmts doProcess prog implicit_includes rest ns
              (updateCur (fun _ => env') s)
      | .addDeps name deps =>
        match s.bound with
        | none => .err .evalError s
        | some build_env =>
          match add_deps name deps build_env with
          | .error e => .err e s
          | .ok env' =>
            execStmts doProcess prog implicit_includes rest ns
              (updateCur (fun _ => env') s)
      | .globStmt includes excludes include_dotfiles =>
        match s.bound with
        | none => .err .evalError s
        | some build_env =>
          match glob_prim (prog.fs build_env.dirname) includes excludes
              include_dotfiles prog.globFuel build_env with
          | .error e => .err e s
          | .ok _paths =>
            execStmts doProcess prog implicit_includes rest ns s
      | .includeDefs name =>
        -- `_include_defs`: current context from the top of the stack
        match s.stack.head? with
        | none => .err .evalError s
        | some _ =>
          match get_include_path prog.root name with
          | .error e => .err e s
          | .ok path =>
            match doProcess (includeCtxFor prog.root path) path
                implicit_includes s with
            | .err e s' => .err e s'
            | .ok (inner_env, mod) s' =>
              let ns := merge_globals mod ns
              let s' := updateCur
                (fun c =>
                  { c with includes :=
                      (inner_env.includes.foldl addStrSet
                        (addStrSet c.includes path)) }) s'
              execStmts doProcess prog implicit_includes rest ns s'

/-- `sorted` on strings. -/
def sortStrs (l : List String) : List String := l.foldr (insertByLt strLt) []

/-- `BuildFileProcessor.process(path)`: run `_process_build_file` on
`os.path.join(project_root, path)` with the processor's implicit
includes, then return the registry's values plus the synthetic
`__includes` record listing `[path] + sorted(includes)`. -/
def process (prog : Program) (fuel : Nat) (path : String) (s : PState) :
    Res (List Rule) :=
  let abs := pjoin prog.root path
  match processPath prog fuel (buildCtxFor prog.root abs) abs
      prog.implicit_includes s with
  | .err e s' => .err e s'
  | .ok (build_env, _mod) s' =>
    let values := pyDictValues build_env.rules
    let manifest : Rule :=
      [("__includes",
        PyVal.list (PyVal.str path ::
          (sortStrs build_env.includes).map PyVal.str))]
    .ok (values ++ [manifest]) s'

/-! ## Concrete instances used to evaluate the model -/

/-- An empty filesystem (for programs that never call `glob`). -/
def emptyFS : FS :=
  ⟨fun _ => [], fun _ => false, fun _ => false, fun _ => false,
   fun _ => false, id, ""⟩

/-- Result projection: the returned value of a successful run. -/
def resVals {α : Type} : Res α → Option α
  | .ok v _ => some v
  | .err _ _ => none

/-- Result projection: the final state. -/
def resState {α : Type} : Res α → PState
  | .ok _ s => s
  | .err _ s => s

/-- Result projection: did the run fail, and with which error? -/
def resErr {α : Type} : Res α → Option BuckError
  | .ok _ _ => none
  | .err e _ => some e

/-- A project with the single build file `pkg/BUCK` declaring the rule
`b` first and the rule `a` second. -/
def progC4 : Program where
  root := "/p"
  files p :=
    if p = "/p/pkg/BUCK" then
      some [Stmt.rule [("name", PyVal.str "b")],
            Stmt.rule [("name", PyVal.str "a")]]
    else none
  fs _ := emptyFS
  implicit_includes := []
  globFuel := 0

/-- The filesystem lists only plain POSIX file names: no shell
metacharacter (`*`, `?`, `[`) and no path separator in any name. -/
def MagicFree (fs : FS) : Prop :=
  ∀ d n, n ∈ fs.names d →
    has_magic n = false ∧ ('/' : Char) ∉ n.toList

/-- A root containing the directories `x*` (a name with a glob
metacharacter) and `xy`, with one file `xy/f`. -/
def fsC2 : FS where
  names p := if p = [] then ["x*", "xy"]
             else if p = ["xy"] then ["f"] else []
  lexists p := p ∈ [[], ["x*"], ["xy"], ["xy", "f"]]
  isfile p := p ∈ [["xy", "f"]]
  isdir p := p ∈ ([[], ["x*"], ["xy"]] : List (List String))
  islink _ := false
  realpath s := s
  rootReal := "/r"

/-- A root directory with plain files `a.txt`, `b.txt`, a hidden file
`.hidden.txt`, and a subdirectory `c` (the specification's end-to-end
example). -/
def fsPlain : FS where
  names p := if p = [] then ["a.txt", "b.txt", ".hidden.txt", "c"] else []
  lexists p := p ∈ [[], ["a.txt"], ["b.txt"], [".hidden.txt"], ["c"]]
  isfile p := p ∈ [["a.txt"], ["b.txt"], [".hidden.txt"]]
  isdir p := p ∈ ([[], ["c"]] : List (List String))
  islink _ := false
  realpath s := s
  rootReal := "/r"

/-- A directory containing two sibling symlinks `l1`, `l2` to the same
canonical directory `/D`, which holds the single file `f`; the root
listing order is the parameter. -/
def fsC8 (order : List String) : FS where
  names p := if p = [] then order
             else if p = ["l1"] ∨ p = ["l2"] then ["f"] else []
  lexists p := p ∈ [[], ["l1"], ["l2"], ["l1", "f"], ["l2", "f"]]
  isfile p := p ∈ [["l1", "f"], ["l2", "f"]]
  isdir p := p ∈ ([[], ["l1"], ["l2"]] : List (List String))
  islink s := s = "/r/l1" ∨ s = "/r/l2"
  realpath s := if s = "/r/l1" ∨ s = "/r/l2" then "/D" else s
  rootReal := "/r"

/-- The last `/`-separated segment of a path string. -/
def lastSeg (s : String) : String :=
  String.mk ((s.toList.reverse.takeWhile (fun c => ¬ c = '/')).reverse)

/-- A symlink topology whose cycle avoids string-prefix ancestors:
`/r` holds the symlink `s1 → /c`; `/c` holds `s2 → /d`; `/d` holds
`s3 → /c`.  Walked paths stay under `/r`, so the pruning test
`abspath.startswith(realpath)` (against `/c` or `/d`) never fires. -/
def cexW : WFS where
  names top :=
    let r := if lastSeg top = "s1" ∨ lastSeg top = "s3" then "/c"
             else if lastSeg top = "s2" then "/d" else top
    if r = "/r" then ["s1"]
    else if r = "/c" then ["s2"]
    else if r = "/d" then ["s3"] else []
  isdir top :=
    if lastSeg top = "s1" ∨ lastSeg top = "s2" ∨ lastSeg top = "s3"
    then true else false
  realpath top :=
    if lastSeg top = "s1" ∨ lastSeg top = "s3" then "/c"
    else if lastSeg top = "s2" then "/d" else top

/-- An ancestor cycle: `/r` holds the directory `a`, and `/r/a` holds
the symlink `back → /r`. -/
def ancW : WFS where
  names top :=
    let r := if lastSeg top = "back" then "/r" else top
    if r = "/r" then ["a"] else if lastSeg r = "a" then ["back"] else []
  isdir top :=
    if lastSeg top = "a" ∨ lastSeg top = "back" then true else false
  realpath top := if lastSeg top = "back" then "/r" else top

/-- Two sibling symlinks `l1`, `l2` to the same canonical directory
`/D` holding the file `f` (no cycle anywhere). -/
def sibW : WFS where
  names top :=
    if top = "/r" then ["l1", "l2"]
    else if lastSeg top = "l1" ∨ lastSeg top = "l2" then ["f"] else []
  isdir top := if lastSeg top = "l1" ∨ lastSeg top = "l2" then true
               else false
  realpath top :=
    if lastSeg top = "l1" ∨ lastSeg top = "l2" then "/D" else top

/-- A plain two-level directory tree without symlinks: `/t` holding the
subdirectory `a`. -/
def treeW : WFS where
  names top := if top = "/t" then ["a"] else []
  isdir top := if top = "/t" ∨ top = "/t/a" then true else false
  realpath top := top

/-- A path is an include target of the run configuration: some name,
either listed among the run-wide implicit includes or appearing in an
`include_defs` statement of some file, resolves to it. -/
def IncTarget (prog : Program) (T : String) : Prop :=
  ∃ name,
    (name ∈ prog.implicit_includes ∨
      ∃ p stmts, prog.files p = some stmts ∧
        Stmt.includeDefs name ∈ stmts) ∧
    get_include_path prog.root name = Except.ok T

/-- Property of a processing function used by the include loops: it
never produces a cache entry for the (non-target) path `q` when called
with the implicit-include list `impl`. -/
def DPCache (doProcess : Ctx → String → List String → PState →
    Res (Ctx × NS)) (q : String) (impl : List String) : Prop :=
  ∀ env r t,
    lookupStr t.cache q = none →
    (∀ e t', doProcess env r impl t = Res.err e t' →
      lookupStr t'.cache q = none) ∧
    (∀ v t', doProcess env r impl t = Res.ok v t' →
      r ≠ q → lookupStr t'.cache q = none)

/-- Property of a processing function used by the include loops: on
success it restores the context stack and rebinds the primitives to the
original top; on failure it leaves the stack extended (no pop) with the
primitives bound to the stale new top. -/
def DPStack (doProcess : Ctx → String → List String → PState →
    Res (Ctx × NS)) : Prop :=
  ∀ env r impl t,
    (t.stack ≠ [] → t.bound = t.stack.head?) →
    (∀ e t', doProcess env r impl t = Res.err e t' →
      t' = t ∨ ∃ l envf, t'.stack = l ++ envf :: t.stack ∧
        t'.bound = t'.stack.head?) ∧
    (∀ v t', doProcess env r impl t = Res.ok v t' →
      t'.stack = t.stack ∧ (t.stack ≠ [] → t'.bound = t.stack.head?))

/-- A run configuration whose single implicit include pulls the build
file itself in via `include_defs` (the build file holds one plain
binding). -/
def progC1cex : Program where
  root := "/p"
  files p :=
    if p = "/p/pkg/BUCK" then some [Stmt.assign "v" (PyVal.int 1)]
    else if p = "/p/i1.py" then some [Stmt.includeDefs "//pkg/BUCK"]
    else none
  fs _ := emptyFS
  implicit_includes := ["//i1.py"]
  globFuel := 0

/-- Like `progC1cex` but with a second implicit include whose file is
missing, so the build-file evaluation fails after the first implicit
include has already pulled the build file in. -/
def progC5cex : Program where
  root := "/p"
  files p :=
    if p = "/p/pkg/BUCK" then some [Stmt.assign "v" (PyVal.int 1)]
    else if p = "/p/i1.py" then some [Stmt.includeDefs "//pkg/BUCK"]
    else none
  fs _ := emptyFS
  implicit_includes := ["//i1.py", "//i2.py"]
  globFuel := 0

/-- Two build files both including the same shared defs file. -/
def progMem : Program where
  root := "/p"
  files p :=
    if p = "/p/a/BUCK" then some [Stmt.includeDefs "//defs.py"]
    else if p = "/p/b/BUCK" then some [Stmt.includeDefs "//defs.py"]
    else if p = "/p/defs.py" then some [Stmt.assign "x" (PyVal.int 1)]
    else none
  fs _ := emptyFS
  implicit_includes := []
  globFuel := 0

/-- A build file declaring the same rule name twice (second declaration
fails). -/
def progDup : Program where
  root := "/p"
  files p :=
    if p = "/p/pkg/BUCK" then
      some [Stmt.rule [("name", PyVal.str "a")],
            Stmt.rule [("name", PyVal.str "a")]]
    else none
  fs _ := emptyFS
  implicit_includes := []
  globFuel := 0

/-- The bounded walk of this tree from this starting directory fails to
complete within every fuel bound: the model of a traversal that never
terminates. -/
def divergesFrom (w : WFS) (top : String) : Prop :=
  ∀ fuel, symlink_aware_walk w top fuel = none

/-- A build file whose single statement raises. -/
def progErr : Program where
  root := "/p"
  files p :=
    if p = "/p/pkg/BUCK" then some [Stmt.raiseStmt] else none
  fs _ := emptyFS
  implicit_includes := []
  globFuel := 0

/-! # Theorems -/

/-! ## Helper lemmas -/

mutual

theorem pvBeq_refl : ∀ v : PyVal, pvBeq v v = true
  | .int _ => by simp [pvBeq]
  | .str _ => by simp [pvBeq]
  | .list l => by simp [pvBeq, pvListBeq_refl l]

theorem pvListBeq_refl : ∀ l : List PyVal, pvListBeq l l = true
  | [] => by simp [pvListBeq]
  | a :: as => by simp [pvListBeq, pvBeq_refl a, pvListBeq_refl as]

end

theorem lookupPV_append_self {α : Type} (l : List (PyVal × α)) (k : PyVal)
    (v : α) (h : lookupPV l k = none) :
    lookupPV (l ++ [(k, v)]) k = some v := by
  induction l with
  | nil => simp [lookupPV, pvBeq_refl]
  | cons e rest ih =>
    simp only [lookupPV, List.cons_append] at h ⊢
    by_cases hb : pvBeq e.1 k = true
    · simp [hb] at h
    · simp only [hb] at h ⊢
      simp [ih h]

theorem charListLt_asymm : ∀ a b : List Char,
    charListLt a b = true → charListLt b a = false
  | [], [] => by simp [charListLt]
  | [], _ :: _ => by simp [charListLt]
  | _ :: _, [] => by simp [charListLt]
  | x :: as, y :: bs => by
    simp only [charListLt]
    by_cases h1 : x < y
    · have h2 : ¬ y < x := lt_asymm h1
      simp [h1, h2]
    · by_cases h2 : y < x
      · simp [h1, h2]
      · simp only [h1, h2, if_false]
        exact charListLt_asymm as bs

theorem charListLt_cotrans : ∀ a b c : List Char,
    charListLt c a = true →
    charListLt c b = true ∨ charListLt b a = true
  | a, [], c => fun h => by
    cases a with
    | nil => cases c <;> simp [charListLt] at h
    | cons x as => exact Or.inr (by simp [charListLt])
  | a, _ :: _, [] => fun _ => Or.inl (by simp [charListLt])
  | [], b :: bs, c :: cs => fun h => by simp [charListLt] at h
  | x :: as, y :: bs, z :: cs => fun h => by
    simp only [charListLt] at h ⊢
    by_cases hzx : z < x
    · by_cases hzy : z < y
      · exact Or.inl (by simp [hzy])
      · have hyx : y < x := lt_of_le_of_lt (le_of_not_lt hzy) hzx
        exact Or.inr (by simp [hyx])
    · by_cases hxz : x < z
      · simp [hzx, hxz] at h
      · have hxe : x = z := le_antisymm (le_of_not_lt hzx) (le_of_not_lt hxz)
        simp only [hzx, hxz, if_false] at h
        by_cases hzy : z < y
        · exact Or.inl (by simp [hzy])
        · by_cases hyz : y < z
          · have hyx : y < x := hxe ▸ hyz
            exact Or.inr (by simp [hyx])
          · have hyx : ¬ y < x := hxe ▸ hyz
            have hxy : ¬ x < y := hxe ▸ hzy
            rcases charListLt_cotrans as bs cs h with hl | hr
            · exact Or.inl (by simp [hzy, hyz, hl])
            · exact Or.inr (by simp [hyx, hxy, hr])

theorem strLt_asymm (a b : String) (h : strLt a b = true) :
    strLt b a = false :=
  charListLt_asymm _ _ h

theorem strLt_cotrans (a b c : String) (h : strLt c a = true) :
    strLt c b = true ∨ strLt b a = true :=
  charListLt_cotrans _ _ _ h

theorem pathLt_asymm (a b : List String) (h : pathLt a b = true) :
    pathLt b a = false :=
  strLt_asymm _ _ h

theorem pathLt_cotrans (a b c : List String) (h : pathLt c a = true) :
    pathLt c b = true ∨ pathLt b a = true :=
  strLt_cotrans _ _ _ h

theorem insertByLt_perm {α : Type} (lt : α → α → Bool) (x : α)
    (l : List α) : (insertByLt lt x l).Perm (x :: l) := by
  induction l with
  | nil => simp [insertByLt]
  | cons y ys ih =>
    simp only [insertByLt]
    by_cases h : lt y x = true
    · simp only [h, if_true]
      exact (ih.cons y).trans (List.Perm.swap x y ys)
    · simp [h]

theorem sortByLt_perm {α : Type} (lt : α → α → Bool) (l : List α) :
    (l.foldr (insertByLt lt) []).Perm l := by
  induction l with
  | nil => simp
  | cons x xs ih =>
    exact (insertByLt_perm lt x _).trans (ih.cons x)

theorem insertByLt_pairwise {α : Type} (lt : α → α → Bool)
    (hasymm : ∀ a b, lt a b = true → lt b a = false)
    (hco : ∀ a b c, lt c a = true → lt c b = true ∨ lt b a = true)
    (x : α) (l : List α)
    (h : l.Pairwise (fun a b => lt b a = false)) :
    (insertByLt lt x l).Pairwise (fun a b => lt b a = false) := by
  induction l with
  | nil => simp [insertByLt]
  | cons y ys ih =>
    rcases List.pairwise_cons.mp h with ⟨hy, hys⟩
    simp only [insertByLt]
    by_cases hlt : lt y x = true
    · simp only [hlt, if_true]
      refine List.pairwise_cons.mpr ⟨?_, ih hys⟩
      intro z hz
      rcases List.mem_cons.mp ((insertByLt_perm lt x ys).mem_iff.mp hz)
        with rfl | hzys
      · exact hasymm y z hlt
      · exact hy z hzys
    · simp only [hlt, if_false]
      refine List.pairwise_cons.mpr ⟨?_, h⟩
      intro z hz
      rcases List.mem_cons.mp hz with rfl | hzys
      · exact eq_false_of_ne_true hlt
      · by_contra hzx
        have hzx' : lt z x = true := eq_true_of_ne_false hzx
        rcases hco x y z hzx' with h1 | h2
        · rw [hy z hzys] at h1; cases h1
        · rw [eq_false_of_ne_true hlt] at h2; cases h2

theorem sortByLt_pairwise {α : Type} (lt : α → α → Bool)
    (hasymm : ∀ a b, lt a b = true → lt b a = false)
    (hco : ∀ a b c, lt c a = true → lt c b = true ∨ lt b a = true)
    (l : List α) :
    (l.foldr (insertByLt lt) []).Pairwise (fun a b => lt b a = false) := by
  induction l with
  | nil => simp
  | cons x xs ih => exact insertByLt_pairwise lt hasymm hco x _ ih

/-! ## C6: rule declaration — missing name, duplicates -/

/-- **C6.**  Declaring a rule in a `BuildFileContext` fails with the
missing-`name` error when the fields lack a `name` entry; and when a
first rule with a fresh (hashable) name registers, it succeeds, a
second declaration with the same name fails with the duplicate-rule
error, and — the failed call returning only the error, registering
nothing — the first declaration's stamped record is still what the
registry holds for that name. -/
theorem claim_C6 :
    (∀ (fields : Rule) (env : Ctx), env.type = CtxType.buildFile →
      lookupStr fields "name" = none →
      add_rule fields env = .error .missingName) ∧
    (∀ (fields fields' : Rule) (env : Ctx) (name : PyVal),
      env.type = CtxType.buildFile →
      lookupStr fields "name" = some name →
      pvHashable name = true →
      lookupPV env.rules name = none →
      ∃ env', add_rule fields env = .ok env' ∧
        lookupPV env'.rules name =
          some (setKey fields "buck.base_path" (PyVal.str env.base_path)) ∧
        (lookupStr fields' "name" = some name →
          add_rule fields' env' = .error .duplicateRule)) := by
  constructor
  · intro fields env htype hname
    simp [add_rule, htype, hname]
  · intro fields fields' env name htype hname hhash hfresh
    refine ⟨{ env with rules := env.rules ++
        [(name, setKey fields "buck.base_path"
          (PyVal.str env.base_path))] }, ?_, ?_, ?_⟩
    · simp [add_rule, htype, hname, hhash, hfresh]
    · simpa using lookupPV_append_self env.rules name _ hfresh
    · intro hname'
      have : lookupPV (env.rules ++
          [(name, setKey fields "buck.base_path"
            (PyVal.str env.base_path))]) name ≠ none := by
        rw [lookupPV_append_self env.rules name _ hfresh]
        simp
      simp only [add_rule, htype, hname', hhash]
      simp_all [Option.isSome_iff_ne_none]

/-- Witness for C6 at a concrete registry. -/
theorem claim_C6_witness :
    add_rule [("deps", PyVal.list [])] (BuildFileContext "pkg" "/r/pkg") =
        .error .missingName ∧
    ∃ env', add_rule [("name", PyVal.str "n")]
        (BuildFileContext "pkg" "/r/pkg") = .ok env' ∧
      lookupPV env'.rules (PyVal.str "n") =
        some (setKey [("name", PyVal.str "n")] "buck.base_path"
          (PyVal.str "pkg")) ∧
      (lookupStr [("name", PyVal.str "n")] "name" = some (PyVal.str "n") →
        add_rule [("name", PyVal.str "n")] env' = .error .duplicateRule) :=
  ⟨claim_C6.1 [("deps", PyVal.list [])] (BuildFileContext "pkg" "/r/pkg")
      rfl rfl,
   by
    obtain ⟨env', h1, h2, h3⟩ :=
      claim_C6.2 [("name", PyVal.str "n")] [("name", PyVal.str "n")]
        (BuildFileContext "pkg" "/r/pkg") (PyVal.str "n")
        rfl rfl rfl rfl
    exact ⟨env', h1, h2, h3⟩⟩

/-! ## C7: context-kind restriction of the mutating primitives -/

/-- **C7.**  `glob`, `add_deps` and rule declaration (`add_rule`) raise
the usage error whenever the active build environment is an
`IncludeContext` — in particular when a `glob` statement executes while
the primitives are bound to an include file's context — and each can
succeed only when the active context is a `BuildFileContext`. -/
theorem claim_C7 :
    (∀ (fs : FS) (incl excl : List String) (idf : Bool) (fuel : Nat)
        (env : Ctx), env.type = CtxType.includeFile →
      glob_prim fs incl excl idf fuel env = .error .usageError) ∧
    (∀ (name : PyVal) (deps : List PyVal) (env : Ctx),
      env.type = CtxType.includeFile →
      add_deps name deps env = .error .usageError) ∧
    (∀ (fields : Rule) (env : Ctx), env.type = CtxType.includeFile →
      add_rule fields env = .error .usageError) ∧
    (∀ (doProcess : Ctx → String → List String → PState → Res (Ctx × NS))
        (prog : Program) (impl : List String)
        (incl excl : List String) (idf : Bool) (rest : List Stmt)
        (ns : NS) (s : PState) (env : Ctx),
      s.bound = some env → env.type = CtxType.includeFile →
      processPath.execStmts doProcess prog impl
        (Stmt.globStmt incl excl idf :: rest) ns s = .err .usageError s) ∧
    (∀ (fs : FS) (incl excl : List String) (idf : Bool) (fuel : Nat)
        (env : Ctx) (paths : List (List String)),
      glob_prim fs incl excl idf fuel env = .ok paths →
      env.type = CtxType.buildFile) ∧
    (∀ (name : PyVal) (deps : List PyVal) (env env' : Ctx),
      add_deps name deps env = .ok env' → env.type = CtxType.buildFile) ∧
    (∀ (fields : Rule) (env env' : Ctx),
      add_rule fields env = .ok env' → env.type = CtxType.buildFile) := by
  refine ⟨?_, ?_, ?_, ?_, ?_, ?_, ?_⟩
  · intro fs incl excl idf fuel env htype
    simp [glob_prim, htype]
  · intro name deps env htype
    simp [add_deps, htype]
  · intro fields env htype
    simp [add_rule, htype]
  · intro doProcess prog impl incl excl idf rest ns s env hbound htype
    simp [processPath.execStmts, hbound, glob_prim, htype]
  · intro fs incl excl idf fuel env paths h
    by_contra hne
    simp [glob_prim, hne] at h
  · intro name deps env env' h
    by_contra hne
    simp [add_deps, hne] at h
  · intro fields env env' h
    by_contra hne
    simp [add_rule, hne] at h

/-- Witness for C7: the three primitives invoked against a concrete
`IncludeContext`, and the `glob` statement executed while an include
context is bound. -/
theorem claim_C7_witness :
    glob_prim (FS.mk (fun _ => []) (fun _ => false) (fun _ => false)
        (fun _ => false) (fun _ => false) id "/r")
      ["*"] [] false 5 (IncludeContext "defs.py" "/r") =
        .error .usageError ∧
    add_deps (PyVal.str "n") [] (IncludeContext "defs.py" "/r") =
      .error .usageError ∧
    add_rule [("name", PyVal.str "n")] (IncludeContext "defs.py" "/r") =
      .error .usageError :=
  ⟨claim_C7.1 _ ["*"] [] false 5 (IncludeContext "defs.py" "/r") rfl,
   claim_C7.2.1 (PyVal.str "n") [] (IncludeContext "defs.py" "/r") rfl,
   claim_C7.2.2.1 [("name", PyVal.str "n")] (IncludeContext "defs.py" "/r")
     rfl⟩

/-! ## C9: the dotfile rule of the pure pattern matcher -/

/-- **C9.**  A wildcard token (magic, not `**`) that does not itself
start with `.` refuses to match a dot-led segment when
`includeDotfiles` is unset; and the three concrete facts
`match("*.py", "a.py") = true`,
`match("*.py", ".a.py", includeDotfiles=false) = false`,
`match("*.py", ".a.py", includeDotfiles=true) = true`. -/
theorem claim_C9 :
    (∀ (token chunk : String) (next_tokens next_chunks : List String),
      has_magic token = true → token ≠ "**" → headIs '.' token = false →
      headIs '.' chunk = true →
      glob_match_internal false (token :: next_tokens)
        (chunk :: next_chunks) = false) ∧
    glob_match "*.py" "a.py" = true ∧
    glob_match "*.py" ".a.py" false = false ∧
    glob_match "*.py" ".a.py" true = true := by
  refine ⟨?_, by decide, by decide, by decide⟩
  intro token chunk next_tokens next_chunks hmagic hstar htok hchunk
  simp [glob_match_internal, gmiChunks, gmiStep, hmagic, hstar, htok, hchunk]

/-- Witness for C9's general clause at `token = "*"`, `chunk = ".a"`. -/
theorem claim_C9_witness :
    glob_match_internal false ["*"] [".a"] = false :=
  claim_C9.1 "*" ".a" [] [] (by decide) (by decide) (by decide) (by decide)

/-! ## C4: the shape and order of `process`'s return value -/

/-- **C4, counterexample.**  `rules` is a CPython 2.7 dict, and
`values()` reads its hash table in slot order, not first-declaration
order: the build file `pkg/BUCK` declares the rule `b` first and the
rule `a` second (first conjunct), yet `process` returns `a`'s record
before `b`'s (hash slots 0 and 3 of the 8-slot table), so the returned
list does not preserve first-declaration order. -/
theorem claim_C4_cex :
    progC4.files "/p/pkg/BUCK" =
      some [Stmt.rule [("name", PyVal.str "b")],
            Stmt.rule [("name", PyVal.str "a")]] ∧
    resVals (process progC4 2 "pkg/BUCK" initState) =
      some [[("name", PyVal.str "a"), ("buck.base_path", PyVal.str "pkg")],
            [("name", PyVal.str "b"), ("buck.base_path", PyVal.str "pkg")],
            [("__includes", PyVal.list [PyVal.str "pkg/BUCK"])]] :=
  ⟨rfl, rfl⟩

/-- **C4, amended.**  A successful `process(path)` returns the finished
build context's rule records in the iteration order of the underlying
CPython dict (in general not first-declaration order), followed by
exactly one trailing synthetic record whose reserved `__includes` key
maps to `[path]` followed by the context's accumulated include paths in
sorted order (the sort being a lexicographically ascending permutation
of the include set). -/
theorem claim_C4 (prog : Program) (fuel : Nat) (path : String)
    (s : PState) (vals : List Rule) (s' : PState)
    (h : process prog fuel path s = .ok vals s') :
    ∃ benv ns,
      processPath prog fuel (buildCtxFor prog.root (pjoin prog.root path))
          (pjoin prog.root path) prog.implicit_includes s =
        .ok (benv, ns) s' ∧
      vals = pyDictValues benv.rules ++
        [[("__includes", PyVal.list (PyVal.str path ::
            (sortStrs benv.includes).map PyVal.str))]] ∧
      (sortStrs benv.includes).Perm benv.includes ∧
      (sortStrs benv.includes).Pairwise (fun a b => strLt b a = false) := by
  unfold process at h
  cases hp : processPath prog fuel
      (buildCtxFor prog.root (pjoin prog.root path))
      (pjoin prog.root path) prog.implicit_includes s with
  | err e s2 =>
    simp only [hp] at h
    exact Res.noConfusion h
  | ok r s2 =>
    obtain ⟨benv, ns⟩ := r
    simp only [hp] at h
    injection h with h1 h2
    subst h2
    exact ⟨benv, ns, rfl, h1.symm, sortByLt_perm _ _,
      sortByLt_pairwise _ strLt_asymm strLt_cotrans _⟩

/-! ## C8: the `glob` primitive's computation -/

theorem mem_addSet (l : List (List String)) (y p : List String) :
    p ∈ addSet l y ↔ p ∈ l ∨ p = y := by
  unfold addSet
  by_cases h : y ∈ l
  · rw [if_pos (by simpa using h)]
    exact ⟨Or.inl, fun hp => hp.elim id (fun e => e ▸ h)⟩
  · rw [if_neg (by simpa using h)]
    simp

theorem nodup_addSet (l : List (List String)) (y : List String)
    (h : l.Nodup) : (addSet l y).Nodup := by
  unfold addSet
  by_cases hy : y ∈ l
  · rw [if_pos (by simpa using hy)]; exact h
  · rw [if_neg (by simpa using hy)]
    simp [List.nodup_append, h, hy]

theorem foldl_addSet_mem (ys : List (List String)) :
    ∀ (ps : List (List String)) (p : List String),
      p ∈ ys.foldl addSet ps ↔ p ∈ ps ∨ p ∈ ys := by
  induction ys with
  | nil => simp
  | cons y ys ih =>
    intro ps p
    simp only [List.foldl_cons, ih, mem_addSet, List.mem_cons]
    tauto

theorem foldl_addSet_nodup (ys : List (List String)) :
    ∀ ps : List (List String), ps.Nodup → (ys.foldl addSet ps).Nodup := by
  induction ys with
  | nil => intro ps h; exact h
  | cons y ys ih =>
    intro ps h
    exact ih _ (nodup_addSet ps y h)

theorem globStep_none (fs : FS) (idf : Bool) (fuel : Nat)
    (pattern : String) : globStep fs idf fuel none pattern = none := by
  unfold globStep
  cases glob_walk fs pattern idf fuel <;> rfl

theorem foldl_globStep_none (fs : FS) (idf : Bool) (fuel : Nat) :
    ∀ l : List String, l.foldl (globStep fs idf fuel) none = none := by
  intro l
  induction l with
  | nil => rfl
  | cons q qs ih =>
    simp only [List.foldl_cons, globStep_none]
    exact ih

/-- Membership and nodup for the include-union loop of `globCompute`. -/
theorem globUnion_mem (fs : FS) (idf : Bool) (fuel : Nat) :
    ∀ (includes : List String) (acc res : List (List String)),
      includes.foldl (globStep fs idf fuel) (some acc) = some res →
      (∀ p, p ∈ res ↔ p ∈ acc ∨ ∃ pat ∈ includes,
        ∃ ys, glob_walk fs pat idf fuel = some ys ∧ p ∈ ys) ∧
      (acc.Nodup → res.Nodup) := by
  intro includes
  induction includes with
  | nil =>
    intro acc res h
    simp only [List.foldl_nil, Option.some.injEq] at h
    subst h
    simp
  | cons pat rest ih =>
    intro acc res h
    simp only [List.foldl_cons] at h
    cases hw : glob_walk fs pat idf fuel with
    | none =>
      rw [show globStep fs idf fuel (some acc) pat = none by
            unfold globStep; rw [hw]] at h
      rw [foldl_globStep_none] at h
      cases h
    | some ys =>
      rw [show globStep fs idf fuel (some acc) pat =
            some (ys.foldl addSet acc) by
            unfold globStep; rw [hw]] at h
      obtain ⟨hmem, hnd⟩ := ih (ys.foldl addSet acc) res h
      refine ⟨?_, fun hacc => hnd (foldl_addSet_nodup ys acc hacc)⟩
      intro p
      rw [hmem p, foldl_addSet_mem]
      constructor
      · rintro ((hp | hp) | ⟨q, hq, zs, hzs, hp⟩)
        · exact Or.inl hp
        · exact Or.inr ⟨pat, List.mem_cons_self pat rest, ys, hw, hp⟩
        · exact Or.inr ⟨q, List.mem_cons_of_mem pat hq, zs, hzs, hp⟩
      · rintro (hp | ⟨q, hq, zs, hzs, hp⟩)
        · exact Or.inl (Or.inl hp)
        · rcases List.mem_cons.mp hq with rfl | hq'
          · rw [hw] at hzs
            cases hzs
            exact Or.inl (Or.inr hp)
          · exact Or.inr ⟨q, hq', zs, hzs, hp⟩

/-- **C8, counterexample.**  The `glob` computation is not independent
of filesystem enumeration order: over two filesystems that differ only
in the enumeration order of the root directory (a permutation —
everything else is the same function of the same data), the pattern
`*/f` returns `["l1/f"]` under one order and `["l2/f"]` under the
other, because the walker's visited set prunes the second sibling
symlink to the already-visited canonical directory. -/
theorem claim_C8_cex :
    ((fsC8 ["l2", "l1"]).names []).Perm ((fsC8 ["l1", "l2"]).names []) ∧
    globCompute (fsC8 ["l1", "l2"]) ["*/f"] [] false 5 =
      some [["l1", "f"]] ∧
    globCompute (fsC8 ["l2", "l1"]) ["*/f"] [] false 5 =
      some [["l2", "f"]] :=
  ⟨List.Perm.swap "l1" "l2" [], rfl, rfl⟩

/-- **C8, amended.**  A successful `glob` computation returns exactly
the deduplicated union, over the include patterns, of the filesystem
glob walker's yields, minus every path matched by some exclude pattern
under the pure pattern matcher with the same dotfile flag, sorted
lexicographically: a deterministic function of the walker's yields.
(It is not independent of filesystem enumeration order: when symlinks
alias one directory through several paths, the walker's visited-set
pruning keeps whichever alias is enumerated first.) -/
theorem claim_C8 (fs : FS) (includes excludes : List String) (idf : Bool)
    (fuel : Nat) (r : List (List String))
    (h : globCompute fs includes excludes idf fuel = some r) :
    (∀ p, p ∈ r ↔
      ((∃ pat ∈ includes, ∃ ys,
          glob_walk fs pat idf fuel = some ys ∧ p ∈ ys) ∧
        excluded excludes idf p = false)) ∧
    r.Pairwise (fun a b => pathLt b a = false) ∧
    r.Nodup := by
  unfold globCompute at h
  cases hu : includes.foldl (globStep fs idf fuel) (some []) with
  | none => rw [hu] at h; cases h
  | some paths =>
    rw [hu] at h
    simp only [Option.some.injEq] at h
    subst h
    obtain ⟨hmem, hnd⟩ := globUnion_mem fs idf fuel includes [] paths hu
    have hperm : (sortPaths (paths.filter
        (fun p => ¬ excluded excludes idf p))).Perm
        (paths.filter (fun p => ¬ excluded excludes idf p)) :=
      sortByLt_perm _ _
    refine ⟨?_, sortByLt_pairwise _ pathLt_asymm pathLt_cotrans _,
      hperm.nodup_iff.mpr ((hnd List.nodup_nil).filter _)⟩
    intro p
    rw [hperm.mem_iff, List.mem_filter, hmem p]
    simp

/-- Witness for C8 on a concrete filesystem. -/
theorem claim_C8_witness :
    (∀ p, p ∈ [(["l1", "f"] : List String)] ↔
      ((∃ pat ∈ ["*/f"], ∃ ys,
          glob_walk (fsC8 ["l1", "l2"]) pat false 5 = some ys ∧ p ∈ ys) ∧
        excluded [] false p = false)) ∧
    ([(["l1", "f"] : List String)]).Pairwise
      (fun a b => pathLt b a = false) ∧
    ([(["l1", "f"] : List String)]).Nodup :=
  claim_C8 (fsC8 ["l1", "l2"]) ["*/f"] [] false 5 [["l1", "f"]] rfl

/-! ## C2: soundness of the walker w.r.t. the pure matcher -/

theorem headIs_true_magic {c : Char} {s : String}
    (hc : (c = '*' || c = '?' || c = '[') = true)
    (h : headIs c s = true) : has_magic s = true := by
  unfold headIs at h
  unfold has_magic
  cases hl : s.toList with
  | nil => rw [hl] at h; cases h
  | cons c' rest =>
    rw [hl] at h
    have : c' = c := by simpa using h
    subst this
    simp [List.any_cons, hc]

theorem headIs_star_false {s : String} (h : has_magic s = false) :
    headIs '*' s = false := by
  by_contra hh
  rw [headIs_true_magic (by decide) (eq_true_of_ne_false hh)] at h
  cases h

theorem headIs_q_false {s : String} (h : has_magic s = false) :
    headIs '?' s = false := by
  by_contra hh
  rw [headIs_true_magic (by decide) (eq_true_of_ne_false hh)] at h
  cases h

theorem hasMagicPath_false {l : List String}
    (h : ∀ s ∈ l, has_magic s = false) : hasMagicPath l = false := by
  unfold hasMagicPath
  rw [List.any_eq_false]
  intro s hs
  simp [h s hs]

theorem fnmatchGo_self : ∀ l : List Char,
    l.any (fun c => c = '*' || c = '?' || c = '[') = false →
    fnmatchGo l l = true := by
  intro l
  induction l with
  | nil => intro _; rfl
  | cons c cs ih =>
    intro h
    rw [List.any_cons, Bool.or_eq_false_iff] at h
    obtain ⟨hc, hcs⟩ := h
    rw [Bool.or_eq_false_iff] at hc
    obtain ⟨hc12, hc3⟩ := hc
    rw [Bool.or_eq_false_iff] at hc12
    obtain ⟨hc1, hc2⟩ := hc12
    have h1 : c ≠ '*' := of_decide_eq_false hc1
    have h2 : c ≠ '?' := of_decide_eq_false hc2
    have h3 : c ≠ '[' := of_decide_eq_false hc3
    show fnmatchStep c (fnmatchGo cs) (c :: cs) = true
    simp [fnmatchStep, h1, h2, h3, ih hcs]

theorem fnmatchGo_dotstar (s ps : List Char)
    (h : fnmatchGo s ('.' :: '*' :: ps) = true) :
    fnmatchGo s ('*' :: ps) = true := by
  cases s with
  | nil => simp [fnmatchGo, fnmatchStarOnly] at h
  | cons c t =>
    have h' : c = '.' ∧ fnmatchGo t ('*' :: ps) = true := by
      simpa [fnmatchGo, fnmatchStep] using h
    show fnmatchStep c (fnmatchGo t) ('*' :: ps) = true
    simp [fnmatchStep, h'.2]

theorem fnmatchGo_dotq (s rest : List Char)
    (h : fnmatchGo s ('.' :: rest) = true) :
    fnmatchGo s ('?' :: rest) = true := by
  cases s with
  | nil => simp [fnmatchGo, fnmatchStarOnly] at h
  | cons c t =>
    have h' : c = '.' ∧ fnmatchGo t rest = true := by
      simpa [fnmatchGo, fnmatchStep] using h
    show fnmatchStep c (fnmatchGo t) ('?' :: rest) = true
    simp [fnmatchStep, h'.2]

theorem splitSlash_of_noslash : ∀ l : List Char, '/' ∉ l →
    splitSlash l = [l] := by
  intro l
  induction l with
  | nil => intro _; rfl
  | cons c cs ih =>
    intro h
    have hc : c ≠ '/' := fun e => h (e ▸ List.mem_cons_self c cs)
    have hcs : '/' ∉ cs := fun e => h (List.mem_cons_of_mem c e)
    simp [splitSlash, hc, ih hcs]

theorem splitSlash_append (a : List Char) (ha : '/' ∉ a) :
    ∀ (b : List Char) (s : List Char) (ss : List (List Char)),
      splitSlash b = s :: ss → splitSlash (a ++ b) = (a ++ s) :: ss := by
  induction a with
  | nil => intro b s ss h; simpa using h
  | cons c cs ih =>
    intro b s ss h
    have hc : c ≠ '/' := fun e => ha (e ▸ List.mem_cons_self c cs)
    have hcs : '/' ∉ cs := fun e => ha (List.mem_cons_of_mem c e)
    have hih := ih hcs b s ss h
    simp only [List.cons_append, splitSlash, hc, if_false,
      List.append_eq, hih]

theorem mk_toList (s : String) : String.mk s.toList = s := rfl

theorem split_join : ∀ p : List String, p ≠ [] →
    (∀ s ∈ p, ('/' : Char) ∉ s.toList) →
    split_path (joinSegs p) = p := by
  intro p
  induction p with
  | nil => intro h; cases h rfl
  | cons x rest ih =>
    intro _ hs
    cases rest with
    | nil =>
      have hx : ('/' : Char) ∉ x.toList := hs x (List.mem_singleton.mpr rfl)
      show (splitSlash (joinSegs [x]).toList).map String.mk = [x]
      rw [show joinSegs [x] = x from rfl,
        splitSlash_of_noslash x.toList hx]
      simp [mk_toList]
    | cons y rest' =>
      have hx : ('/' : Char) ∉ x.toList := hs x (List.mem_cons_self _ _)
      have hrest : ∀ s ∈ y :: rest', ('/' : Char) ∉ s.toList :=
        fun s hs' => hs s (List.mem_cons_of_mem x hs')
      have hj := ih (by simp) hrest
      unfold split_path at hj ⊢
      have htl : (joinSegs (x :: y :: rest')).toList =
          x.toList ++ '/' :: (joinSegs (y :: rest')).toList := by
        show ((x ++ "/") ++ joinSegs (y :: rest')).data =
          x.data ++ '/' :: (joinSegs (y :: rest')).data
        simp [String.data_append]
      rw [htl]
      cases hsp : splitSlash (joinSegs (y :: rest')).toList with
      | nil =>
        rw [hsp] at hj
        cases hj
      | cons s ss =>
        rw [hsp] at hj
        have hstep : splitSlash ('/' :: (joinSegs (y :: rest')).toList) =
            [] :: s :: ss := by
          rw [show splitSlash ('/' :: (joinSegs (y :: rest')).toList) =
                [] :: splitSlash (joinSegs (y :: rest')).toList by
              simp [splitSlash], hsp]
        rw [splitSlash_append x.toList hx _ _ _ hstep]
        simp only [List.map_cons, List.append_nil, mk_toList]
        rw [← List.map_cons String.mk s ss, hj]

theorem rewriteFirstStar_spec : ∀ (l : List String),
    (∀ s ∈ l, has_magic s = false) → ∀ t : String,
    rewriteFirstStar (l ++ [t]) =
      if headIs '*' t then some (l ++ ["." ++ t]) else none := by
  intro l
  induction l with
  | nil =>
    intro _ t
    by_cases h : headIs '*' t = true <;> simp [rewriteFirstStar, h]
  | cons s rest ih =>
    intro hl t
    have hs : headIs '*' s = false :=
      headIs_star_false (hl s (List.mem_cons_self _ _))
    have hrest : ∀ u ∈ rest, has_magic u = false :=
      fun u hu => hl u (List.mem_cons_of_mem s hu)
    by_cases h : headIs '*' t = true <;>
      simp [rewriteFirstStar, hs, ih hrest t, h]

theorem rewriteFirstQ_spec : ∀ (l : List String),
    (∀ s ∈ l, has_magic s = false) → ∀ t : String,
    rewriteFirstQ (l ++ [t]) =
      if headIs '?' t then some (l ++ ["." ++ strDrop1 t]) else none := by
  intro l
  induction l with
  | nil =>
    intro _ t
    by_cases h : headIs '?' t = true <;> simp [rewriteFirstQ, h]
  | cons s rest ih =>
    intro hl t
    have hs : headIs '?' s = false :=
      headIs_q_false (hl s (List.mem_cons_self _ _))
    have hrest : ∀ u ∈ rest, has_magic u = false :=
      fun u hu => hl u (List.mem_cons_of_mem s hu)
    by_cases h : headIs '?' t = true <;>
      simp [rewriteFirstQ, hs, ih hrest t, h]

theorem specialForDots_spec (l : List String)
    (hl : ∀ s ∈ l, has_magic s = false) (t : String) :
    specialForDots (l ++ [t]) =
      if headIs '*' t then some (l ++ ["." ++ t])
      else if headIs '?' t then some (l ++ ["." ++ strDrop1 t])
      else none := by
  cases l with
  | nil =>
    show specialForDots [t] = _
    by_cases h1 : headIs '*' t = true
    · simp [specialForDots, h1]
    · by_cases h2 : headIs '?' t = true <;>
        simp [specialForDots, h1, h2, rewriteFirstStar, rewriteFirstQ]
  | cons s0 rest =>
    have hs0 : has_magic s0 = false := hl s0 (List.mem_cons_self _ _)
    have hrest : ∀ u ∈ rest, has_magic u = false :=
      fun u hu => hl u (List.mem_cons_of_mem s0 hu)
    have h1 := headIs_star_false hs0
    have h2 := headIs_q_false hs0
    show specialForDots (s0 :: (rest ++ [t])) = _
    by_cases ht1 : headIs '*' t = true
    · simp [specialForDots, h1, h2, rewriteFirstStar_spec rest hrest t, ht1]
    · by_cases ht2 : headIs '?' t = true <;>
        simp [specialForDots, h1, h2, rewriteFirstStar_spec rest hrest t,
          rewriteFirstQ_spec rest hrest t, ht1, ht2]

theorem glob1_mem (fs : FS) (dir : List String) (pattern n : String)
    (h : n ∈ glob1 fs dir pattern) :
    n ∈ fs.names dir ∧ fnmatch n pattern = true ∧
      (headIs '.' pattern = false → headIs '.' n = false) := by
  simp only [glob1] at h
  by_cases hd : headIs '.' pattern = true
  · rw [if_neg (by simp [hd])] at h
    rw [List.mem_filter] at h
    exact ⟨h.1, h.2, fun hf => by rw [hd] at hf; cases hf⟩
  · rw [if_pos (by simpa using hd)] at h
    rw [List.mem_filter] at h
    obtain ⟨h1, h2⟩ := h
    rw [List.mem_filter] at h1
    exact ⟨h1.1, h2, fun _ => by simpa using h1.2⟩

/-- Unfolding `iglob` when the final token is magic and the directory
part is metacharacter-free: a single `glob1` expansion in the parent
directory. -/
theorem iglobRev_cons_magic (fs : FS) (basename : String)
    (revdir : List String) (hmag : has_magic basename = true)
    (hrev : hasMagicPath revdir = false) :
    iglobRev fs (basename :: revdir) =
      (glob1 fs revdir.reverse basename).map
        (fun n => revdir.reverse ++ [n]) := by
  have hmp : hasMagicPath (basename :: revdir) = true := by
    simp [hasMagicPath, hmag]
  simp only [iglobRev, hmp, hrev, hmag]
  simp

/-- Unfolding `iglob` on a fully metacharacter-free pattern: an
existence test. -/
theorem iglobRev_cons_nonmagic (fs : FS) (basename : String)
    (revdir : List String) (hmag : has_magic basename = false)
    (hrev : hasMagicPath revdir = false) :
    iglobRev fs (basename :: revdir) =
      (if fs.lexists (revdir.reverse ++ [basename])
       then [revdir.reverse ++ [basename]] else []) := by
  have hmp : hasMagicPath (basename :: revdir) = false := by
    simp only [hasMagicPath, List.any_cons]
    rw [hmag]
    simpa [hasMagicPath] using hrev
  simp only [iglobRev, hmp]
  simp

/-- Characterization of `glob.iglob` on a pattern whose directory part
is metacharacter-free: the non-magic pattern is an existence test for
itself; a magic final token expands through `glob1` in the (single)
parent directory. -/
theorem iglobPath_sound (fs : FS) (pathSegs : List String)
    (token : String) (hp : ∀ s ∈ pathSegs, has_magic s = false) :
    ∀ child ∈ iglobPath fs (pathSegs ++ [token]),
      ∃ name, child = pathSegs ++ [name] ∧
        ((has_magic token = false ∧ name = token) ∨
         (has_magic token = true ∧ name ∈ fs.names pathSegs ∧
          fnmatch name token = true ∧
          (headIs '.' token = false → headIs '.' name = false))) := by
  intro child hchild
  unfold iglobPath at hchild
  rw [show (pathSegs ++ [token]).reverse = token :: pathSegs.reverse by
        simp] at hchild
  have hrev : hasMagicPath pathSegs.reverse = false :=
    hasMagicPath_false (fun s hs => hp s (List.mem_reverse.mp hs))
  by_cases hm : has_magic token = true
  · rw [iglobRev_cons_magic fs token pathSegs.reverse hm hrev] at hchild
    rw [List.reverse_reverse] at hchild
    rw [List.mem_map] at hchild
    obtain ⟨n, hn, rfl⟩ := hchild
    obtain ⟨hn1, hn2, hn3⟩ := glob1_mem fs pathSegs token n hn
    exact ⟨n, rfl, Or.inr ⟨hm, hn1, hn2, hn3⟩⟩
  · have hm' : has_magic token = false := eq_false_of_ne_true hm
    rw [iglobRev_cons_nonmagic fs token pathSegs.reverse hm' hrev,
      List.reverse_reverse] at hchild
    by_cases he : fs.lexists (pathSegs ++ [token]) = true
    · rw [if_pos he] at hchild
      rw [List.mem_singleton] at hchild
      subst hchild
      exact ⟨token, rfl, Or.inl ⟨hm', rfl⟩⟩
    · rw [if_neg he] at hchild
      cases hchild

theorem dot_prepend_toList (t : String) :
    ("." ++ t).toList = '.' :: t.toList := by
  show ("." ++ t).data = '.' :: t.data
  rw [String.data_append]
  rfl

theorem strDrop1_toList (t : String) :
    (strDrop1 t).toList = t.toList.drop 1 := rfl

theorem headIs_eq_cons {c : Char} {s : String} (h : headIs c s = true) :
    ∃ rest, s.toList = c :: rest := by
  unfold headIs at h
  cases hl : s.toList with
  | nil => rw [hl] at h; cases h
  | cons c' r =>
    rw [hl] at h
    have : c' = c := by simpa using h
    exact ⟨r, by rw [this]⟩

/-- Children yielded by the walker's `iglob` closure (plain pass plus
dotfile pass) on a pattern whose directory part consists of plain
names: each child extends the directory by one plain name which either
equals the non-magic token, or `fnmatch`es the magic token (with the
dotfile refusal when `include_dotfiles` is unset). -/
theorem iglobBuck_sound (fs : FS) (idf : Bool) (hfs : MagicFree fs)
    (pathSegs : List String) (token : String)
    (hp : ∀ s ∈ pathSegs, has_magic s = false ∧ ('/' : Char) ∉ s.toList)
    (ht : ('/' : Char) ∉ token.toList) :
    ∀ child ∈ iglobBuck fs idf (pathSegs ++ [token]),
      ∃ name, child = pathSegs ++ [name] ∧
        has_magic name = false ∧ ('/' : Char) ∉ name.toList ∧
        (has_magic token = false → name = token) ∧
        (has_magic token = true → fnmatch name token = true ∧
          (idf = false → headIs '.' token = false →
            headIs '.' name = false)) := by
  intro child hchild
  unfold iglobBuck at hchild
  rw [List.mem_append] at hchild
  have hpm : ∀ s ∈ pathSegs, has_magic s = false := fun s hs => (hp s hs).1
  rcases hchild with hmain | hdot
  · obtain ⟨name, hceq, hcase⟩ :=
      iglobPath_sound fs pathSegs token hpm child hmain
    rcases hcase with ⟨hm', heq⟩ | ⟨hm, hn1, hn2, hn3⟩
    · rw [heq] at hceq
      refine ⟨token, hceq, hm', ht, fun _ => rfl, ?_⟩
      intro hmt
      rw [hm'] at hmt
      cases hmt
    · have hgood := hfs pathSegs name hn1
      refine ⟨name, hceq, hgood.1, hgood.2, ?_, ?_⟩
      · intro hf
        rw [hf] at hm
        cases hm
      · intro _
        exact ⟨hn2, fun _ => hn3⟩
  · by_cases hidf : idf = true
    · rw [if_pos (by simp [hidf])] at hdot
      rw [specialForDots_spec pathSegs hpm token] at hdot
      by_cases h1 : headIs '*' token = true
      · rw [if_pos h1] at hdot
        have htokmag : has_magic token = true :=
          headIs_true_magic (by decide) h1
        obtain ⟨rest0, htok⟩ := headIs_eq_cons h1
        obtain ⟨name, hceq, hcase⟩ :=
          iglobPath_sound fs pathSegs ("." ++ token) hpm child hdot
        have hrm : has_magic ("." ++ token) = true := by
          show (("." ++ token).toList.any
            (fun c => c = '*' || c = '?' || c = '[')) = true
          rw [dot_prepend_toList, htok]
          simp
        rcases hcase with ⟨hm', _⟩ | ⟨_, hn1, hn2, _⟩
        · rw [hrm] at hm'; cases hm'
        · have hgood := hfs pathSegs name hn1
          have hfn : fnmatch name token = true := by
            have : fnmatchGo name.toList ('.' :: '*' :: rest0) = true := by
              have := hn2
              unfold fnmatch at this
              rwa [dot_prepend_toList, htok] at this
            have hstar := fnmatchGo_dotstar name.toList rest0 this
            unfold fnmatch
            rw [htok]
            exact hstar
          refine ⟨name, hceq, hgood.1, hgood.2, ?_, ?_⟩
          · intro hf
            rw [hf] at htokmag
            cases htokmag
          · intro _
            refine ⟨hfn, ?_⟩
            intro hf
            rw [hf] at hidf
            cases hidf
      · by_cases h2 : headIs '?' token = true
        · rw [if_neg h1, if_pos h2] at hdot
          have htokmag : has_magic token = true :=
            headIs_true_magic (by decide) h2
          obtain ⟨rest0, htok⟩ := headIs_eq_cons h2
          have hrt : ("." ++ strDrop1 token).toList = '.' :: rest0 := by
            rw [dot_prepend_toList, strDrop1_toList, htok]
            rfl
          obtain ⟨name, hceq, hcase⟩ :=
            iglobPath_sound fs pathSegs ("." ++ strDrop1 token) hpm
              child hdot
          rcases hcase with ⟨hm', rfl⟩ | ⟨_, hn1, hn2, _⟩
          · -- non-magic rewritten token: the child is the literal
            -- dot-led name itself
            have hmagfree : (("." ++ strDrop1 token).toList.any
                (fun c => c = '*' || c = '?' || c = '[')) = false := hm'
            have hself := fnmatchGo_self _ hmagfree
            have hq : fnmatchGo ("." ++ strDrop1 token).toList
                ('?' :: rest0) = true := by
              apply fnmatchGo_dotq
              rw [hrt] at hself ⊢
              exact hself
            have hfn : fnmatch ("." ++ strDrop1 token) token = true := by
              unfold fnmatch
              rw [htok]
              exact hq
            have hnsl : ('/' : Char) ∉ ("." ++ strDrop1 token).toList := by
              rw [hrt]
              intro hmem
              rcases List.mem_cons.mp hmem with he | hmem'
              · cases he
              · exact ht (by rw [htok]; exact List.mem_cons_of_mem _ hmem')
            refine ⟨"." ++ strDrop1 token, hceq, hm', hnsl, ?_, ?_⟩
            · intro hf
              rw [hf] at htokmag
              cases htokmag
            · intro _
              refine ⟨hfn, ?_⟩
              intro hf
              rw [hf] at hidf
              cases hidf
          · have hgood := hfs pathSegs name hn1
            have hfn : fnmatch name token = true := by
              have hdotm : fnmatchGo name.toList ('.' :: rest0) = true := by
                have := hn2
                unfold fnmatch at this
                rwa [hrt] at this
              unfold fnmatch
              rw [htok]
              exact fnmatchGo_dotq name.toList rest0 hdotm
            refine ⟨name, hceq, hgood.1, hgood.2, ?_, ?_⟩
            · intro hf
              rw [hf] at htokmag
              cases htokmag
            · intro _
              refine ⟨hfn, ?_⟩
              intro hf
              rw [hf] at hidf
              cases hidf
        · rw [if_neg h1, if_neg h2] at hdot
          cases hdot
    · rw [if_neg (by simpa using hidf)] at hdot
      cases hdot

theorem gwiStep_foldl_mem
    (F : List String → List (List String × String) →
      List (List String) × List (List String × String)) :
    ∀ (children : List (List String)) (ys0 : List (List String))
      (vis0 : List (List String × String)) (p : List String),
      p ∈ (children.foldl (gwiStep F) (ys0, vis0)).1 →
      p ∈ ys0 ∨ ∃ child ∈ children, ∃ vis, p ∈ (F child vis).1 := by
  intro children
  induction children with
  | nil => intro ys0 vis0 p hp; exact Or.inl hp
  | cons c cs ih =>
    intro ys0 vis0 p hp
    rw [List.foldl_cons] at hp
    rcases ih _ _ p hp with hp' | ⟨child, hc, vis, hpv⟩
    · rcases List.mem_append.mp hp' with h1 | h2
      · exact Or.inl h1
      · exact Or.inr ⟨c, List.mem_cons_self c cs, vis0, h2⟩
    · exact Or.inr ⟨child, List.mem_cons_of_mem c hc, vis, hpv⟩

/-- Matching `[]` matches only the empty chunk list. -/
theorem gmi_nil_true {idf : Bool} {rest : List String}
    (h : glob_match_internal idf [] rest = true) : rest = [] := by
  cases rest with
  | nil => rfl
  | cons c cs => simp [glob_match_internal, gmiChunks, gmiStep] at h

/-- The zero-segment case of `**`. -/
theorem gmi_star_zero {idf : Bool} {next rest : List String}
    (h : glob_match_internal idf next rest = true) :
    glob_match_internal idf ("**" :: next) rest = true := by
  cases rest with
  | nil =>
    simp only [glob_match_internal, gmiChunks, gmiEmpty] at h ⊢
    simp [h]
  | cons c cs =>
    simp only [glob_match_internal, gmiChunks, gmiStep] at h ⊢
    have hm : has_magic "**" = true := by decide
    simp [hm, h]

/-- The consume-one-segment case of `**`, under the dotfile rule. -/
theorem gmi_star_cons {idf : Bool} {next rest : List String}
    {name : String}
    (h : glob_match_internal idf ("**" :: next) rest = true)
    (hdot : idf = false → headIs '.' name = false) :
    glob_match_internal idf ("**" :: next) (name :: rest) = true := by
  have hm : has_magic "**" = true := by decide
  have h' : gmiChunks idf rest ("**" :: next) = true := h
  show gmiStep idf name (gmiChunks idf rest) ("**" :: next) = true
  simp only [gmiStep]
  rw [hm]
  cases idf with
  | true => simp [h']
  | false =>
    rw [hdot rfl]
    simp [h']

/-- The single-token step of the matcher, for a child produced by the
walker's `iglob`. -/
theorem gmi_tok_cons {idf : Bool} {next rest : List String}
    {token name : String}
    (h : glob_match_internal idf next rest = true)
    (hcase : (has_magic token = false ∧ name = token) ∨
      (has_magic token = true ∧ fnmatch name token = true ∧
        (idf = false → headIs '.' token = false →
          headIs '.' name = false))) :
    glob_match_internal idf (token :: next) (name :: rest) = true := by
  have h' : gmiChunks idf rest next = true := h
  rcases hcase with ⟨hm, rfl⟩ | ⟨hm, hfn, hd⟩
  · show gmiStep idf name (gmiChunks idf rest) (name :: next) = true
    simp only [gmiStep]
    rw [hm]
    simp [h']
  · by_cases hstar : token = "**"
    · subst hstar
      exact gmi_star_cons (gmi_star_zero h)
        (fun hf => hd hf (by decide))
    · show gmiStep idf name (gmiChunks idf rest) (token :: next) = true
      simp only [gmiStep]
      rw [hm]
      cases idf with
      | true => simp [hstar, hfn, h']
      | false =>
        by_cases htd : headIs '.' token = true
        · simp [hstar, htd, hfn, h']
        · have hnd := hd rfl (eq_false_of_ne_true htd)
          simp [hstar, eq_false_of_ne_true htd, hnd, hfn, h']

/-- Membership in the `['**']` special base yield. -/
theorem base1_mem {fs : FS} {token : String} {next_tokens : List String}
    {path : Option (List String)} {p : List String}
    (hp : p ∈ (if token = "**" && next_tokens.isEmpty &&
        isresult fs path then [path.getD []] else [])) :
    p = path.getD [] ∧ token = "**" ∧ next_tokens = [] ∧
      isresult fs path = true := by
  by_cases hc : (token = "**" && next_tokens.isEmpty &&
      isresult fs path) = true
  · rw [if_pos hc] at hp
    rw [List.mem_singleton] at hp
    simp only [Bool.and_eq_true] at hc
    refine ⟨hp, by simpa using hc.1.1, by simpa using hc.1.2, hc.2⟩
  · rw [if_neg hc] at hp
    cases hp

/-- Soundness of the walker against the pure matcher, one recursion
level at a time: on a metacharacter-free filesystem, every yield of
`glob_walk_internal` extends the constructed path by segments that the
remaining tokens match. -/
theorem gwi_sound (fs : FS) (idf : Bool) (hfs : MagicFree fs) :
    ∀ (fuel : Nat) (tokens : List String) (path : Option (List String))
      (normpath : String) (visited : List (List String × String)),
      (∀ s ∈ path.getD [], has_magic s = false ∧
        ('/' : Char) ∉ s.toList) →
      (∀ t ∈ tokens, ('/' : Char) ∉ t.toList) →
      ∀ p ∈ (gwi fs idf fuel tokens path normpath visited).1,
        ∃ rest, p = path.getD [] ++ rest ∧
          (∀ s ∈ rest, has_magic s = false ∧
            ('/' : Char) ∉ s.toList) ∧
          glob_match_internal idf tokens rest = true ∧
          (rest = [] → isresult fs path = true) := by
  intro fuel
  induction fuel with
  | zero =>
    intro tokens path normpath visited _ _ p hp
    cases hp
  | succ n ih =>
    intro tokens path normpath visited hpath htok p hp
    cases tokens with
    | nil =>
      simp only [gwi] at hp
      by_cases hres : isresult fs path = true
      · rw [if_pos hres] at hp
        rw [List.mem_singleton] at hp
        exact ⟨[], by simpa using hp, by simp, rfl, fun _ => hres⟩
      · rw [if_neg hres] at hp
        cases hp
    | cons token next_tokens =>
      simp only [gwi] at hp
      by_cases hvis :
          visited.contains (token :: next_tokens, normpath) = true
      · rw [if_pos hvis] at hp
        obtain ⟨rfl, rfl, rfl, hres⟩ := base1_mem hp
        exact ⟨[], by simp, by simp, rfl, fun _ => hres⟩
      · rw [if_neg hvis] at hp
        by_cases hstar : token = "**"
        · subst hstar
          rw [if_pos rfl] at hp
          rcases List.mem_append.mp hp with hp' | hp2
          · rcases List.mem_append.mp hp' with hpb | hp1
            · obtain ⟨rfl, _, rfl, hres⟩ := base1_mem hpb
              exact ⟨[], by simp, by simp, rfl, fun _ => hres⟩
            · -- zero-segment recursion on next_tokens
              by_cases hne : next_tokens.isEmpty = true
              · rw [if_pos hne] at hp1
                cases hp1
              · rw [if_neg hne] at hp1
                obtain ⟨rest, hrq, hrg, hrm, hni⟩ :=
                  ih next_tokens path normpath _ hpath
                    (fun t ht => htok t (List.mem_cons_of_mem _ ht))
                    p hp1
                exact ⟨rest, hrq, hrg, gmi_star_zero hrm, hni⟩
          · -- descent into the children of iglob(path/*)
            rcases gwiStep_foldl_mem _ _ _ _ p hp2 with hemp | hchild
            · cases hemp
            · obtain ⟨child, hcmem, vis, hpv⟩ := hchild
              rw [show path_join path "*" = path.getD [] ++ ["*"] by
                    cases path <;> rfl] at hcmem
              obtain ⟨name, rfl, hnm, hnsl, _, hmag⟩ :=
                iglobBuck_sound fs idf hfs (path.getD []) "*" hpath
                  (by decide) child hcmem
              obtain ⟨hfn, hdot⟩ := hmag (by decide)
              have hchildgood : ∀ s ∈ (some (path.getD [] ++ [name]) :
                  Option (List String)).getD [],
                  has_magic s = false ∧ ('/' : Char) ∉ s.toList := by
                intro s hs
                rcases List.mem_append.mp hs with h1 | h2
                · exact hpath s h1
                · rw [List.mem_singleton] at h2
                  subst h2
                  exact ⟨hnm, hnsl⟩
              obtain ⟨rest, hrq, hrg, hrm, _⟩ :=
                ih ("**" :: next_tokens) (some (path.getD [] ++ [name]))
                  _ vis hchildgood htok p hpv
              refine ⟨name :: rest, ?_, ?_, ?_, ?_⟩
              · simpa using hrq
              · intro s hs
                rcases List.mem_cons.mp hs with rfl | hs'
                · exact ⟨hnm, hnsl⟩
                · exact hrg s hs'
              · exact gmi_star_cons hrm
                  (fun hidf => hdot hidf (by decide))
              · exact fun he => absurd he (List.cons_ne_nil _ _)
        · rw [if_neg hstar] at hp
          have httok : ('/' : Char) ∉ token.toList :=
            htok token (List.mem_cons_self _ _)
          by_cases hne : next_tokens.isEmpty = true
          · rw [if_pos hne] at hp
            have hnext : next_tokens = [] := by
              cases next_tokens with
              | nil => rfl
              | cons a b => cases hne
            rcases List.mem_append.mp hp with hpb | hp1
            · obtain ⟨_, he, _⟩ := base1_mem hpb
              exact absurd he hstar
            · rcases gwiStep_foldl_mem _ _ _ _ p hp1 with hemp | hchild
              · cases hemp
              · obtain ⟨child, hcmem, vis, hpv⟩ := hchild
                rw [show path_join path token =
                      path.getD [] ++ [token] by cases path <;> rfl]
                  at hcmem
                obtain ⟨name, rfl, hnm, hnsl, hlit, hmag⟩ :=
                  iglobBuck_sound fs idf hfs (path.getD []) token hpath
                    httok child hcmem
                obtain ⟨rest, hrq, _, hrm, _⟩ :=
                  ih [] (some (path.getD [] ++ [name])) "" vis
                    (by
                      intro s hs
                      rcases List.mem_append.mp hs with h1 | h2
                      · exact hpath s h1
                      · rw [List.mem_singleton] at h2
                        subst h2
                        exact ⟨hnm, hnsl⟩)
                    (by intro t ht; cases ht) p hpv
                have hrest := gmi_nil_true hrm
                subst hrest
                refine ⟨[name], by simpa using hrq, ?_, ?_,
                  fun he => absurd he (List.cons_ne_nil _ _)⟩
                · intro s hs
                  rw [List.mem_singleton] at hs
                  subst hs
                  exact ⟨hnm, hnsl⟩
                · subst hnext
                  apply @gmi_tok_cons _ [] [] _ _ rfl
                  by_cases hm : has_magic token = true
                  · exact Or.inr ⟨hm, (hmag hm).1, (hmag hm).2⟩
                  · have hm' := eq_false_of_ne_true hm
                    exact Or.inl ⟨hm', hlit hm'⟩
          · rw [if_neg hne] at hp
            rcases List.mem_append.mp hp with hpb | hp1
            · obtain ⟨_, he, _⟩ := base1_mem hpb
              exact absurd he hstar
            · rcases gwiStep_foldl_mem _ _ _ _ p hp1 with hemp | hchild
              · cases hemp
              · obtain ⟨child, hcmem, vis, hpv⟩ := hchild
                rw [show path_join path token =
                      path.getD [] ++ [token] by cases path <;> rfl]
                  at hcmem
                obtain ⟨name, rfl, hnm, hnsl, hlit, hmag⟩ :=
                  iglobBuck_sound fs idf hfs (path.getD []) token hpath
                    httok child hcmem
                obtain ⟨rest, hrq, hrg, hrm, _⟩ :=
                  ih next_tokens (some (path.getD [] ++ [name])) _ vis
                    (by
                      intro s hs
                      rcases List.mem_append.mp hs with h1 | h2
                      · exact hpath s h1
                      · rw [List.mem_singleton] at h2
                        subst h2
                        exact ⟨hnm, hnsl⟩)
                    (fun t ht => htok t (List.mem_cons_of_mem _ ht))
                    p hpv
                refine ⟨name :: rest, by simpa using hrq, ?_, ?_,
                  fun he => absurd he (List.cons_ne_nil _ _)⟩
                · intro s hs
                  rcases List.mem_cons.mp hs with rfl | hs'
                  · exact ⟨hnm, hnsl⟩
                  · exact hrg s hs'
                · apply gmi_tok_cons hrm
                  by_cases hm : has_magic token = true
                  · exact Or.inr ⟨hm, (hmag hm).1, (hmag hm).2⟩
                  · have hm' := eq_false_of_ne_true hm
                    exact Or.inl ⟨hm', hlit hm'⟩

theorem splitSlash_noslash : ∀ l : List Char, ∀ s ∈ splitSlash l,
    ('/' : Char) ∉ s := by
  intro l
  induction l with
  | nil =>
    intro s hs
    rw [show splitSlash [] = [[]] from rfl, List.mem_singleton] at hs
    subst hs
    simp
  | cons c rest ih =>
    intro s hs
    by_cases hc : c = '/'
    · rw [show splitSlash (c :: rest) = [] :: splitSlash rest by
          simp [splitSlash, hc]] at hs
      rcases List.mem_cons.mp hs with rfl | hs'
      · simp
      · exact ih s hs'
    · rw [show splitSlash (c :: rest) =
          (match splitSlash rest with
           | s :: ss => (c :: s) :: ss
           | [] => [[c]]) by simp [splitSlash, hc]] at hs
      cases hsp : splitSlash rest with
      | nil =>
        rw [hsp] at hs
        rw [show (match ([] : List (List Char)) with
             | s :: ss => (c :: s) :: ss
             | [] => [[c]]) = [[c]] from rfl, List.mem_singleton] at hs
        subst hs
        intro hmem
        rw [List.mem_singleton] at hmem
        exact hc hmem.symm
      | cons s0 ss =>
        rw [hsp] at hs
        rcases List.mem_cons.mp hs with rfl | hs'
        · intro hmem
          rcases List.mem_cons.mp hmem with he | hmem'
          · exact hc he.symm
          · exact ih s0 (hsp ▸ List.mem_cons_self s0 ss) hmem'
        · exact ih s (hsp ▸ List.mem_cons_of_mem s0 hs')

theorem split_path_noslash (pattern : String) :
    ∀ t ∈ split_path pattern, ('/' : Char) ∉ t.toList := by
  intro t ht
  unfold split_path at ht
  rw [List.mem_map] at ht
  obtain ⟨l, hl, rfl⟩ := ht
  exact splitSlash_noslash pattern.toList l hl

/-- **C2, counterexample.**  On a filesystem with a directory literally
named `x*` (alongside `xy`, which holds the file `f`), the walker run
on the pattern `x[*]/f` yields `xy/f`: stdlib `glob.iglob`
re-interprets the already-expanded directory name `x*` as a pattern
when expanding the next segment.  The pure pattern matcher rejects that
yield (`x[*]` matches only the literal name `x*`), refuting the claim
as stated. -/
theorem claim_C2_cex :
    glob_walk fsC2 "x[*]/f" false 5 = some [["xy", "f"]] ∧
    joinSegs ["xy", "f"] = "xy/f" ∧
    glob_match "x[*]/f" "xy/f" false = false :=
  ⟨rfl, rfl, rfl⟩

/-- **C2, amended.**  Provided no name in the filesystem contains a
glob metacharacter (`*`, `?`, `[`) — the situation in which the
already-expanded path handed back to `glob.iglob` cannot be
re-interpreted as a pattern — every path yielded by the filesystem glob
walker for a pattern satisfies the pure pattern matcher for that
pattern under the same dotfile policy. -/
theorem claim_C2 (fs : FS) (hfs : MagicFree fs) (pattern : String)
    (idf : Bool) (fuel : Nat) (ys : List (List String))
    (h : glob_walk fs pattern idf fuel = some ys) :
    ∀ p ∈ ys,
      glob_match_internal idf (split_path pattern) p = true ∧
      glob_match pattern (joinSegs p) idf = true := by
  intro p hp
  unfold glob_walk at h
  by_cases hw : well_formed_tokens (split_path pattern) = true
  · rw [if_neg (by simp [hw])] at h
    injection h with h
    subst h
    obtain ⟨rest, hrq, hrg, hrm, hne⟩ :=
      gwi_sound fs idf hfs fuel (split_path pattern) none fs.rootReal []
        (by intro s hs; cases hs) (split_path_noslash pattern) p hp
    have hpr : p = rest := by simpa using hrq
    subst hpr
    have hpn : p ≠ [] := by
      intro he
      have := hne he
      rw [show isresult fs none = false from rfl] at this
      cases this
    refine ⟨hrm, ?_⟩
    unfold glob_match
    rw [split_join p hpn (fun s hs => (hrg s hs).2)]
    exact hrm
  · rw [if_pos (by simpa using hw)] at h
    cases h

/-- Witness for C2 on the metacharacter-free example filesystem: the
walk of `*.txt` yields `a.txt` and `b.txt`, and both satisfy the
matcher. -/
theorem claim_C2_witness :
    glob_match_internal false (split_path "*.txt") ["a.txt"] = true ∧
    glob_match "*.txt" (joinSegs ["a.txt"]) false = true :=
  claim_C2 fsPlain
    (by
      intro d n hn
      unfold fsPlain at hn
      simp only at hn
      by_cases hd : d = []
      · rw [if_pos hd] at hn
        simp only [List.mem_cons, List.not_mem_nil, or_false] at hn
        rcases hn with rfl | rfl | rfl | rfl <;>
          exact ⟨by decide, by decide⟩
      · rw [if_neg hd] at hn
        cases hn)
    "*.txt" false 10 [["a.txt"], ["b.txt"]] rfl
    ["a.txt"] (List.mem_cons_self _ _)

/-! ## C3: the symlink-aware walk -/

/-- One-step unfolding of `swalk`. -/
theorem swalk_succ (wfs : WFS) (n : Nat) (top : String)
    (visited : List String) :
    swalk wfs (n + 1) top visited =
      (let names := wfs.names top
       let dirs := names.filter (fun m => wfs.isdir (top ++ "/" ++ m))
       let files := names.filter (fun m => ¬ wfs.isdir (top ++ "/" ++ m))
       let realdirpath := wfs.realpath top
       if visited.contains realdirpath &&
           strStartsWith top realdirpath then
         some ([], visited)
       else
         let visited' :=
           if visited.contains realdirpath then visited
           else visited ++ [realdirpath]
         dirs.foldl
           (swalkStep (fun m vis => swalk wfs n (top ++ "/" ++ m) vis))
           (some ([(top, dirs, files)], visited'))) := rfl

theorem takeWhile_append_stop {p : Char → Bool} :
    ∀ (X : List Char), (∀ c ∈ X, p c = true) → ∀ (x : Char) (Y : List Char),
      p x = false → (X ++ x :: Y).takeWhile p = X := by
  intro X
  induction X with
  | nil =>
    intro _ x Y hx
    simp [List.takeWhile, hx]
  | cons c cs ih =>
    intro hX x Y hx
    have hc := hX c (List.mem_cons_self _ _)
    simp only [List.cons_append, List.takeWhile, hc]
    rw [List.append_eq, ih (fun d hd => hX d (List.mem_cons_of_mem c hd)) x Y hx]

theorem toList_append_slash (a b : String) :
    (a ++ "/" ++ b).toList = a.toList ++ '/' :: b.toList := by
  show ((a ++ "/") ++ b).data = a.data ++ '/' :: b.data
  simp [String.data_append]

theorem lastSeg_append (a b : String) (hb : ('/' : Char) ∉ b.toList) :
    lastSeg (a ++ "/" ++ b) = b := by
  unfold lastSeg
  rw [toList_append_slash]
  rw [show (a.toList ++ '/' :: b.toList).reverse =
        b.toList.reverse ++ '/' :: a.toList.reverse by simp]
  rw [takeWhile_append_stop b.toList.reverse
        (fun c hc => by
          simp only [decide_eq_true_eq]
          exact fun he => hb (he ▸ List.mem_reverse.mp hc))
        '/' a.toList.reverse (by simp)]
  rw [List.reverse_reverse]
  exact mk_toList b

theorem shape_not_startsWith {top : String} {rest : List Char}
    (hsh : top.toList = '/' :: 'r' :: '/' :: rest) (d : String)
    (hd : d = "/c" ∨ d = "/d") : strStartsWith top d = false := by
  unfold strStartsWith
  rw [hsh]
  rcases hd with rfl | rfl
  · show (['/', 'c'].isPrefixOf ('/' :: 'r' :: '/' :: rest)) = false
    simp only [List.isPrefixOf]
    decide
  · show (['/', 'd'].isPrefixOf ('/' :: 'r' :: '/' :: rest)) = false
    simp only [List.isPrefixOf]
    decide

theorem swalkStep_none
    (F : String → List String → Option (List WalkEntry × List String))
    (es : List WalkEntry) (vis : List String) (m : String)
    (h : F m vis = none) : swalkStep F (some (es, vis)) m = none := by
  simp only [swalkStep]
  rw [h]

theorem swalkStep_some
    (F : String → List String → Option (List WalkEntry × List String))
    (es : List WalkEntry) (vis : List String) (m : String)
    (es' : List WalkEntry) (vis' : List String)
    (h : F m vis = some (es', vis')) :
    swalkStep F (some (es, vis)) m = some (es ++ es', vis') := by
  simp only [swalkStep]
  rw [h]

/-- Non-termination of the walk inside the `/c ⇄ /d` cycle: from any
walked path under `/r` that resolves into the cycle, the walk never
completes, with any visited set. -/
theorem cexW_diverges : ∀ (n : Nat) (top : String)
    (V : List String),
    (∃ rest, top.toList = '/' :: 'r' :: '/' :: rest) →
    (lastSeg top = "s1" ∨ lastSeg top = "s2" ∨ lastSeg top = "s3") →
    swalk cexW n top V = none := by
  intro n
  induction n with
  | zero => intro top V _ _; rfl
  | succ n ih =>
    intro top V hsh hstate
    obtain ⟨rest, hsh'⟩ := hsh
    have hshape13 : ∀ m : String, ('/' : Char) ∉ m.toList →
        ∃ r', (top ++ "/" ++ m).toList = '/' :: 'r' :: '/' :: r' := by
      intro m _
      refine ⟨rest ++ '/' :: m.toList, ?_⟩
      rw [toList_append_slash, hsh']
      simp
    by_cases hc : lastSeg top = "s1" ∨ lastSeg top = "s3"
    · -- canonical directory /c: one subdirectory s2 resolving to /d
      have hnames : cexW.names top = ["s2"] := by
        show (if (if lastSeg top = "s1" ∨ lastSeg top = "s3" then "/c"
                  else if lastSeg top = "s2" then "/d" else top) = "/r"
              then ["s1"]
              else if (if lastSeg top = "s1" ∨ lastSeg top = "s3"
                       then "/c"
                       else if lastSeg top = "s2" then "/d" else top) =
                  "/c" then ["s2"]
              else if (if lastSeg top = "s1" ∨ lastSeg top = "s3"
                       then "/c"
                       else if lastSeg top = "s2" then "/d" else top) =
                  "/d" then ["s3"] else []) = ["s2"]
        rw [if_pos hc]
        rw [if_neg (by decide), if_pos rfl]
      have hreal : cexW.realpath top = "/c" := by
        show (if lastSeg top = "s1" ∨ lastSeg top = "s3" then "/c"
              else if lastSeg top = "s2" then "/d" else top) = "/c"
        rw [if_pos hc]
      have hisdir : cexW.isdir (top ++ "/" ++ "s2") = true := by
        show (if lastSeg (top ++ "/" ++ "s2") = "s1" ∨
                lastSeg (top ++ "/" ++ "s2") = "s2" ∨
                lastSeg (top ++ "/" ++ "s2") = "s3"
              then true else false) = true
        rw [lastSeg_append top "s2" (by decide)]
        simp
      rw [swalk_succ]
      simp only [hnames, hreal]
      rw [shape_not_startsWith hsh' "/c" (Or.inl rfl), Bool.and_false]
      simp only [Bool.false_eq_true, if_false]
      rw [show (["s2"].filter
            (fun m => cexW.isdir (top ++ "/" ++ m))) = ["s2"] by
          simp [List.filter, hisdir]]
      rw [List.foldl_cons, List.foldl_nil]
      exact swalkStep_none _ _ _ _
        (ih (top ++ "/" ++ "s2") _
          (hshape13 "s2" (by decide))
          (Or.inr (Or.inl (lastSeg_append top "s2" (by decide)))))
    · have hs2 : lastSeg top = "s2" := by
        rcases hstate with h1 | h2 | h3
        · exact absurd (Or.inl h1) hc
        · exact h2
        · exact absurd (Or.inr h3) hc
      have hnot13 : ¬ (lastSeg top = "s1" ∨ lastSeg top = "s3") := hc
      have hnames : cexW.names top = ["s3"] := by
        show (if (if lastSeg top = "s1" ∨ lastSeg top = "s3" then "/c"
                  else if lastSeg top = "s2" then "/d" else top) = "/r"
              then ["s1"]
              else if (if lastSeg top = "s1" ∨ lastSeg top = "s3"
                       then "/c"
                       else if lastSeg top = "s2" then "/d" else top) =
                  "/c" then ["s2"]
              else if (if lastSeg top = "s1" ∨ lastSeg top = "s3"
                       then "/c"
                       else if lastSeg top = "s2" then "/d" else top) =
                  "/d" then ["s3"] else []) = ["s3"]
        rw [if_neg hnot13, if_pos hs2]
        rw [if_neg (by decide), if_neg (by decide), if_pos rfl]
      have hreal : cexW.realpath top = "/d" := by
        show (if lastSeg top = "s1" ∨ lastSeg top = "s3" then "/c"
              else if lastSeg top = "s2" then "/d" else top) = "/d"
        rw [if_neg hnot13, if_pos hs2]
      have hisdir : cexW.isdir (top ++ "/" ++ "s3") = true := by
        show (if lastSeg (top ++ "/" ++ "s3") = "s1" ∨
                lastSeg (top ++ "/" ++ "s3") = "s2" ∨
                lastSeg (top ++ "/" ++ "s3") = "s3"
              then true else false) = true
        rw [lastSeg_append top "s3" (by decide)]
        simp
      rw [swalk_succ]
      simp only [hnames, hreal]
      rw [shape_not_startsWith hsh' "/d" (Or.inr rfl), Bool.and_false]
      simp only [Bool.false_eq_true, if_false]
      rw [show (["s3"].filter
            (fun m => cexW.isdir (top ++ "/" ++ m))) = ["s3"] by
          simp [List.filter, hisdir]]
      rw [List.foldl_cons, List.foldl_nil]
      exact swalkStep_none _ _ _ _
        (ih (top ++ "/" ++ "s3") _
          (hshape13 "s3" (by decide))
          (Or.inr (Or.inr (lastSeg_append top "s3" (by decide)))))

/-- **C3, counterexample.**  On the symlink topology
`/r/s1 → /c`, `/c/s2 → /d`, `/d/s3 → /c` (a cycle between two
directories, neither a string-prefix ancestor of the walked paths),
`symlink_aware_walk("/r")` never terminates: for every fuel bound the
bounded model fails to complete, because the pruning test
`abspath.startswith(realpath)` never fires on the cycle. -/
theorem claim_C3_cex : divergesFrom cexW "/r" := by
  intro fuel
  cases fuel with
  | zero => rfl
  | succ n =>
    show List.foldl
        (swalkStep fun m vis => swalk cexW n ("/r" ++ "/" ++ m) vis)
        (some ([("/r", ["s1"],
          List.filter
            (fun m => decide (¬ cexW.isdir ("/r" ++ "/" ++ m) = true))
            ["s1"])], ["/r"]))
        ["s1"] = none
    rw [List.foldl_cons, List.foldl_nil]
    exact swalkStep_none _ _ _ _
      (cexW_diverges n ("/r" ++ "/" ++ "s1") _
        ⟨['s', '1'], rfl⟩ (Or.inl rfl))

/-- **C3, amended.**  The walk terminates whenever directory nesting is
well-founded (a rank function decreases into every listed
subdirectory, as on any finite symlink-free tree), whatever the visited
set; a symlink cycle back to a string-prefix ancestor is pruned rather
than followed (`/r/a/back → /r` example); and a directory reachable
through two sibling symlinks is yielded once per path, not once overall
(`l1`/`l2 → /D` example: the entries for `/r/l1` and `/r/l2` both list
`/D`'s content). -/
theorem claim_C3 :
    (∀ (wfs : WFS) (rank : String → Nat),
      (∀ top m, m ∈ wfs.names top →
        wfs.isdir (top ++ "/" ++ m) = true →
        rank (top ++ "/" ++ m) < rank top) →
      ∀ (fuel : Nat) (top : String) (visited : List String),
        rank top < fuel → (swalk wfs fuel top visited).isSome = true) ∧
    symlink_aware_walk ancW "/r" 10 =
      some ([("/r", ["a"], []), ("/r/a", ["back"], [])],
        ["/r", "/r/a"]) ∧
    symlink_aware_walk sibW "/r" 10 =
      some ([("/r", ["l1", "l2"], []), ("/r/l1", [], ["f"]),
             ("/r/l2", [], ["f"])], ["/r", "/D"]) := by
  refine ⟨?_, rfl, rfl⟩
  intro wfs rank hrank fuel
  induction fuel with
  | zero =>
    intro top visited h
    cases h
  | succ n ih =>
    intro top visited h
    rw [swalk_succ]
    by_cases hprune : (visited.contains (wfs.realpath top) &&
        strStartsWith top (wfs.realpath top)) = true
    · simp only [hprune, if_true]
      rfl
    · simp only [hprune, if_false]
      have hstep : ∀ (ds : List String)
          (acc : Option (List WalkEntry × List String)),
          (∀ m ∈ ds, m ∈ wfs.names top ∧
            wfs.isdir (top ++ "/" ++ m) = true) →
          acc.isSome = true →
          ((ds.foldl (swalkStep
              (fun m vis => swalk wfs n (top ++ "/" ++ m) vis))
              acc).isSome = true) := by
        intro ds
        induction ds with
        | nil => intro acc _ ha; exact ha
        | cons m ms ihds =>
          intro acc hmem ha
          rw [List.foldl_cons]
          obtain ⟨⟨es, vis⟩, rfl⟩ := Option.isSome_iff_exists.mp ha
          have hmm := hmem m (List.mem_cons_self _ _)
          have hrk : rank (top ++ "/" ++ m) < n :=
            Nat.lt_of_lt_of_le (hrank top m hmm.1 hmm.2)
              (Nat.lt_succ_iff.mp h)
          have hrec := ih (top ++ "/" ++ m) vis hrk
          obtain ⟨⟨es', vis'⟩, hsome⟩ :=
            Option.isSome_iff_exists.mp hrec
          rw [swalkStep_some
            (fun m vis => swalk wfs n (top ++ "/" ++ m) vis)
            es vis m es' vis' hsome]
          exact ihds _ (fun q hq => hmem q (List.mem_cons_of_mem m hq))
            rfl
      exact hstep _ _
        (fun m hm => by
          rw [List.mem_filter] at hm
          exact ⟨hm.1, by simpa using hm.2⟩)
        rfl

/-- Witness for the general clause of C3 on a concrete two-level
tree. -/
theorem claim_C3_witness :
    (swalk treeW 2 "/t" []).isSome = true :=
  claim_C3.1 treeW (fun s => if s = "/t" then 1 else 0)
    (by
      intro top m hm _
      by_cases ht : top = "/t"
      · subst ht
        have : m = "a" := by
          simpa [treeW] using hm
        subst this
        show (if ("/t" ++ "/" ++ "a") = "/t" then 1 else 0) < 1
        rw [if_neg (by decide)]
        decide
      · rw [show treeW.names top = [] by simp [treeW, ht]] at hm
        cases hm)
    2 "/t" [] (by decide)

/-- Witness for C4 on the concrete project `progC4`. -/
theorem claim_C4_witness :
    ∃ vals s', process progC4 2 "pkg/BUCK" initState = .ok vals s' ∧
      ∃ benv ns,
        processPath progC4 2
            (buildCtxFor progC4.root (pjoin progC4.root "pkg/BUCK"))
            (pjoin progC4.root "pkg/BUCK") progC4.implicit_includes
            initState = .ok (benv, ns) s' ∧
        vals = pyDictValues benv.rules ++
          [[("__includes", PyVal.list (PyVal.str "pkg/BUCK" ::
              (sortStrs benv.includes).map PyVal.str))]] ∧
        (sortStrs benv.includes).Perm benv.includes ∧
        (sortStrs benv.includes).Pairwise (fun a b => strLt b a = false) :=
  ⟨_, _, rfl, claim_C4 progC4 2 "pkg/BUCK" initState _ _ rfl⟩

/-! ## C1, C5, C10: the processor's cache, error and stack behaviour -/

theorem lookupStr_setKey_self {α : Type} (l : List (String × α))
    (k : String) (v : α) : lookupStr (setKey l k v) k = some v := by
  induction l with
  | nil => simp [setKey, lookupStr]
  | cons kw rest ih =>
    obtain ⟨k', w⟩ := kw
    by_cases h : k' = k
    · subst h
      simp [setKey, lookupStr]
    · simp [setKey, h, lookupStr, ih]

theorem lookupStr_setKey_ne {α : Type} (l : List (String × α))
    (k q : String) (v : α) (hne : k ≠ q) :
    lookupStr (setKey l k v) q = lookupStr l q := by
  induction l with
  | nil => simp [setKey, lookupStr, hne]
  | cons kw rest ih =>
    obtain ⟨k', w⟩ := kw
    by_cases h : k' = k
    · subst h
      simp [setKey, lookupStr, hne]
    · simp [setKey, h, lookupStr, ih]

theorem pushEnv_cache (env : Ctx) (s : PState) :
    (pushEnv env s).cache = s.cache := rfl

theorem popEnv_cache (s : PState) : (popEnv s).cache = s.cache := by
  unfold popEnv
  cases hs : s.stack
  · rfl
  · rfl

theorem updateCur_cache (f : Ctx → Ctx) (s : PState) :
    (updateCur f s).cache = s.cache := by
  unfold updateCur
  cases hs : s.stack
  · rfl
  · rfl

/-- Every successful evaluation leaves its returned pair in the cache
keyed by the processed path. -/
theorem processPath_ok_cached (prog : Program) (fuel : Nat) (env : Ctx)
    (path : String) (impl : List String) (s : PState) (v : Ctx × NS)
    (s' : PState)
    (h : processPath prog fuel env path impl s = Res.ok v s') :
    lookupStr s'.cache path = some v := by
  cases fuel with
  | zero => exact Res.noConfusion h
  | succ n =>
    simp only [processPath] at h
    cases hc : lookupStr s.cache path with
    | some cached =>
      rw [hc] at h
      injection h with h1 h2
      rw [← h2, hc, h1]
    | none =>
      rw [hc] at h
      simp only at h
      cases him : processPath.processImplicits (processPath prog n)
          prog.root impl [] (pushEnv env s) with
      | err e s2 =>
        rw [him] at h
        exact Res.noConfusion h
      | ok ns0 s2 =>
        rw [him] at h
        simp only at h
        cases hf : prog.files path with
        | none =>
          rw [hf] at h
          exact Res.noConfusion h
        | some stmts =>
          rw [hf] at h
          simp only at h
          cases hex : processPath.execStmts (processPath prog n) prog
              impl stmts ns0 { s2 with trace := s2.trace ++ [path] } with
          | err e s3 =>
            rw [hex] at h
            exact Res.noConfusion h
          | ok ns s3 =>
            rw [hex] at h
            injection h with h1 h2
            rw [← h2]
            rw [← h1]
            exact lookupStr_setKey_self _ path _

/-- **C1, amended.**  A request for a path that is already cached
returns the memoized pair with the state completely unchanged (no
re-execution); every successful evaluation stores its returned
(context, namespace) pair in the cache keyed by the path; and in
sequential use the memoization makes evaluation exactly-once: two build
files both including the same defs file execute it once (the ghost
execution trace lists it once).  This is at-most-once only for
non-re-entrant requests: a build file reached again via `include_defs`
while its own evaluation is still in flight (e.g. from one of its
implicit includes) is executed a second time, because the cache is
consulted before the implicit includes run. -/
theorem claim_C1 :
    (∀ (prog : Program) (fuel : Nat) (env : Ctx) (path : String)
       (impl : List String) (s : PState) (pr : Ctx × NS),
       lookupStr s.cache path = some pr →
       processPath prog (fuel + 1) env path impl s = Res.ok pr s) ∧
    (∀ (prog : Program) (fuel : Nat) (env : Ctx) (path : String)
       (impl : List String) (s : PState) (v : Ctx × NS) (s' : PState),
       processPath prog fuel env path impl s = Res.ok v s' →
       lookupStr s'.cache path = some v) ∧
    (resState (process progMem 10 "b/BUCK"
        (resState (process progMem 10 "a/BUCK" initState)))).trace =
      ["/p/a/BUCK", "/p/defs.py", "/p/b/BUCK"] := by
  refine ⟨?_, ?_, rfl⟩
  · intro prog fuel env path impl s pr h
    simp only [processPath]
    rw [h]
  · intro prog fuel env path impl s v s' h
    exact processPath_ok_cached prog fuel env path impl s v s' h

/-- **C1, counterexample.**  With an implicit include that pulls the
requested build file in via `include_defs`, one successful
`process("pkg/BUCK")` run executes `/p/pkg/BUCK` twice (once as an
include, once as the build file): the cache is checked before the
implicit includes are processed, so the nested evaluation's cache entry
comes too late to stop the outer one. -/
theorem claim_C1_cex :
    (resVals (process progC1cex 10 "pkg/BUCK" initState)).isSome =
      true ∧
    (resState (process progC1cex 10 "pkg/BUCK" initState)).trace =
      ["/p/i1.py", "/p/pkg/BUCK", "/p/pkg/BUCK"] ∧
    ((resState (process progC1cex 10 "pkg/BUCK" initState)).trace.count
      "/p/pkg/BUCK") = 2 :=
  ⟨rfl, rfl, rfl⟩

/-- The implicit-include loop never caches a path that is not among its
targets and that the processing function protects. -/
theorem processImplicits_cache_pres
    (doProcess : Ctx → String → List String → PState → Res (Ctx × NS))
    (root q : String) (Hd : DPCache doProcess q []) :
    ∀ (incs : List String),
      (∀ inc ∈ incs, ∀ T, get_include_path root inc = Except.ok T →
        T ≠ q) →
      ∀ (ns : NS) (t : PState),
        lookupStr t.cache q = none →
        (∀ e t', processPath.processImplicits doProcess root incs ns t =
            Res.err e t' → lookupStr t'.cache q = none) ∧
        (∀ v t', processPath.processImplicits doProcess root incs ns t =
            Res.ok v t' → lookupStr t'.cache q = none) := by
  intro incs
  induction incs with
  | nil =>
    intro _ ns t ht
    simp only [processPath.processImplicits]
    refine ⟨?_, ?_⟩
    · intro e t' h
      exact Res.noConfusion h
    · intro v t' h
      injection h with h1 h2
      rw [← h2]
      exact ht
  | cons inc rest ih =>
    intro hT ns t ht
    have hTrest : ∀ i ∈ rest, ∀ T, get_include_path root i =
        Except.ok T → T ≠ q :=
      fun i hi => hT i (List.mem_cons_of_mem inc hi)
    simp only [processPath.processImplicits]
    cases hgp : get_include_path root inc with
    | error e0 =>
      refine ⟨?_, ?_⟩
      · intro e t' h
        injection h with h1 h2
        rw [← h2]
        exact ht
      · intro v t' h
        exact Res.noConfusion h
    | ok T =>
      have hTq : T ≠ q := hT inc (List.mem_cons_self _ _) T hgp
      simp only
      cases hdp : doProcess (includeCtxFor root T) T [] t with
      | err e1 t1 =>
        have hpres := (Hd _ _ _ ht).1 _ _ hdp
        simp only
        refine ⟨?_, ?_⟩
        · intro e t' h
          injection h with h1 h2
          rw [← h2]
          exact hpres
        · intro v t' h
          exact Res.noConfusion h
      | ok pr t1 =>
        obtain ⟨inner_env, mod⟩ := pr
        have hpres := (Hd _ _ _ ht).2 _ _ hdp hTq
        simp only
        exact ih hTrest (merge_globals mod ns) _
          (by rw [updateCur_cache]; exact hpres)

/-- Statement execution never caches a path that is not among the
`include_defs` targets and that the processing function protects. -/
theorem execStmts_cache_pres
    (doProcess : Ctx → String → List String → PState → Res (Ctx × NS))
    (prog : Program) (impl : List String) (q : String)
    (Hd : DPCache doProcess q impl) :
    ∀ (stmts : List Stmt),
      (∀ name, Stmt.includeDefs name ∈ stmts → ∀ T,
        get_include_path prog.root name = Except.ok T → T ≠ q) →
      ∀ (ns : NS) (t : PState),
        lookupStr t.cache q = none →
        (∀ e t', processPath.execStmts doProcess prog impl stmts ns t =
            Res.err e t' → lookupStr t'.cache q = none) ∧
        (∀ v t', processPath.execStmts doProcess prog impl stmts ns t =
            Res.ok v t' → lookupStr t'.cache q = none) := by
  intro stmts
  induction stmts with
  | nil =>
    intro _ ns t ht
    simp only [processPath.execStmts]
    refine ⟨?_, ?_⟩
    · intro e t' h
      exact Res.noConfusion h
    · intro v t' h
      injection h with h1 h2
      rw [← h2]
      exact ht
  | cons stmt rest ih =>
    intro hT ns t ht
    have hTrest : ∀ name, Stmt.includeDefs name ∈ rest → ∀ T,
        get_include_path prog.root name = Except.ok T → T ≠ q :=
      fun name hn => hT name (List.mem_cons_of_mem stmt hn)
    cases stmt with
    | assign x v0 =>
      simp only [processPath.execStmts]
      exact ih hTrest (setKey ns x v0) t ht
    | raiseStmt =>
      simp only [processPath.execStmts]
      refine ⟨?_, ?_⟩
      · intro e t' h
        injection h with h1 h2
        rw [← h2]
        exact ht
      · intro v t' h
        exact Res.noConfusion h
    | rule fields =>
      simp only [processPath.execStmts]
      cases hb : t.bound with
      | none =>
        simp only
        refine ⟨?_, ?_⟩
        · intro e t' h
          injection h with h1 h2
          rw [← h2]
          exact ht
        · intro v t' h
          exact Res.noConfusion h
      | some build_env =>
        simp only
        cases har : add_rule fields build_env with
        | error e0 =>
          simp only
          refine ⟨?_, ?_⟩
          · intro e t' h
            injection h with h1 h2
            rw [← h2]
            exact ht
          · intro v t' h
            exact Res.noConfusion h
        | ok env' =>
          simp only
          exact ih hTrest ns _ (by rw [updateCur_cache]; exact ht)
    | addDeps name deps =>
      simp only [processPath.execStmts]
      cases hb : t.bound with
      | none =>
        simp only
        refine ⟨?_, ?_⟩
        · intro e t' h
          injection h with h1 h2
          rw [← h2]
          exact ht
        · intro v t' h
          exact Res.noConfusion h
      | some build_env =>
        simp only
        cases har : add_deps name deps build_env with
        | error e0 =>
          simp only
          refine ⟨?_, ?_⟩
          · intro e t' h
            injection h with h1 h2
            rw [← h2]
            exact ht
          · intro v t' h
            exact Res.noConfusion h
        | ok env' =>
          simp only
          exact ih hTrest ns _ (by rw [updateCur_cache]; exact ht)
    | globStmt includes excludes idf =>
      simp only [processPath.execStmts]
      cases hb : t.bound with
      | none =>
        simp only
        refine ⟨?_, ?_⟩
        · intro e t' h
          injection h with h1 h2
          rw [← h2]
          exact ht
        · intro v t' h
          exact Res.noConfusion h
      | some build_env =>
        simp only
        cases hg : glob_prim (prog.fs build_env.dirname) includes
            excludes idf prog.globFuel build_env with
        | error e0 =>
          simp only
          refine ⟨?_, ?_⟩
          · intro e t' h
            injection h with h1 h2
            rw [← h2]
            exact ht
          · intro v t' h
            exact Res.noConfusion h
        | ok paths =>
          simp only
          exact ih hTrest ns t ht
    | includeDefs name =>
      simp only [processPath.execStmts]
      cases hh : t.stack.head? with
      | none =>
        simp only
        refine ⟨?_, ?_⟩
        · intro e t' h
          injection h with h1 h2
          rw [← h2]
          exact ht
        · intro v t' h
          exact Res.noConfusion h
      | some c0 =>
        simp only
        cases hgp : get_include_path prog.root name with
        | error e0 =>
          simp only
          refine ⟨?_, ?_⟩
          · intro e t' h
            injection h with h1 h2
            rw [← h2]
            exact ht
          · intro v t' h
            exact Res.noConfusion h
        | ok T =>
          have hTq : T ≠ q := hT name (List.mem_cons_self _ _) T hgp
          simp only
          cases hdp : doProcess (includeCtxFor prog.root T) T impl t with
          | err e1 t1 =>
            have hpres := (Hd _ _ _ ht).1 _ _ hdp
            simp only
            refine ⟨?_, ?_⟩
            · intro e t' h
              injection h with h1 h2
              rw [← h2]
              exact hpres
            · intro v t' h
              exact Res.noConfusion h
          | ok pr t1 =>
            obtain ⟨inner_env, mod⟩ := pr
            have hpres := (Hd _ _ _ ht).2 _ _ hdp hTq
            simp only
            exact ih hTrest (merge_globals mod ns) _
              (by rw [updateCur_cache]; exact hpres)

/-- The processor never caches a path that is not an include target,
other than the path a successful call itself processed. -/
theorem processPath_cache_pres (prog : Program) (q : String)
    (hq : ¬ IncTarget prog q) :
    ∀ (fuel : Nat) (env : Ctx) (path : String) (impl : List String)
      (s : PState),
      (impl = prog.implicit_includes ∨ impl = []) →
      lookupStr s.cache q = none →
      (∀ e s', processPath prog fuel env path impl s = Res.err e s' →
        lookupStr s'.cache q = none) ∧
      (∀ v s', processPath prog fuel env path impl s = Res.ok v s' →
        path ≠ q → lookupStr s'.cache q = none) := by
  intro fuel
  induction fuel with
  | zero =>
    intro env path impl s _ hs
    simp only [processPath]
    refine ⟨?_, ?_⟩
    · intro e s' h
      injection h with h1 h2
      rw [← h2]
      exact hs
    · intro v s' h
      exact Res.noConfusion h
  | succ n ih =>
    intro env path impl s himpl hs
    have HdNil : DPCache (processPath prog n) q [] := by
      intro env' r t ht
      exact ih env' r [] t (Or.inr rfl) ht
    have HdImpl : DPCache (processPath prog n) q impl := by
      intro env' r t ht
      exact ih env' r impl t himpl ht
    have hIncT : ∀ inc ∈ impl, ∀ T,
        get_include_path prog.root inc = Except.ok T → T ≠ q := by
      intro inc hinc T hTg hTq
      rcases himpl with h1 | h1
      · exact hq ⟨inc, Or.inl (h1 ▸ hinc), hTq ▸ hTg⟩
      · rw [h1] at hinc
        cases hinc
    simp only [processPath]
    cases hc : lookupStr s.cache path with
    | some cached =>
      refine ⟨?_, ?_⟩
      · intro e s' h
        exact Res.noConfusion h
      · intro v s' h _
        injection h with h1 h2
        rw [← h2]
        exact hs
    | none =>
      simp only
      cases him : processPath.processImplicits (processPath prog n)
          prog.root impl [] (pushEnv env s) with
      | err e2 s2 =>
        have hpres := ((processImplicits_cache_pres _ prog.root q HdNil
          impl hIncT [] (pushEnv env s))
            (by rw [pushEnv_cache]; exact hs)).1 _ _ him
        simp only
        refine ⟨?_, ?_⟩
        · intro e s' h
          injection h with h1 h2
          rw [← h2]
          exact hpres
        · intro v s' h
          exact Res.noConfusion h
      | ok ns0 s2 =>
        have hpres := ((processImplicits_cache_pres _ prog.root q HdNil
          impl hIncT [] (pushEnv env s))
            (by rw [pushEnv_cache]; exact hs)).2 _ _ him
        simp only
        cases hf : prog.files path with
        | none =>
          simp only
          refine ⟨?_, ?_⟩
          · intro e s' h
            injection h with h1 h2
            rw [← h2]
            exact hpres
          · intro v s' h
            exact Res.noConfusion h
        | some stmts =>
          have hTstmts : ∀ name, Stmt.includeDefs name ∈ stmts → ∀ T,
              get_include_path prog.root name = Except.ok T → T ≠ q := by
            intro name hn T hTg hTq
            exact hq ⟨name, Or.inr ⟨path, stmts, hf, hn⟩, hTq ▸ hTg⟩
          simp only
          cases hex : processPath.execStmts (processPath prog n) prog
              impl stmts ns0 { s2 with trace := s2.trace ++ [path] } with
          | err e3 s3 =>
            have hpres3 := ((execStmts_cache_pres _ prog impl q HdImpl
              stmts hTstmts ns0 { s2 with trace := s2.trace ++ [path] })
                hpres).1 _ _ hex
            simp only
            refine ⟨?_, ?_⟩
            · intro e s' h
              injection h with h1 h2
              rw [← h2]
              exact hpres3
            · intro v s' h
              exact Res.noConfusion h
          | ok ns3 s3 =>
            have hpres3 := ((execStmts_cache_pres _ prog impl q HdImpl
              stmts hTstmts ns0 { s2 with trace := s2.trace ++ [path] })
                hpres).2 _ _ hex
            simp only
            refine ⟨?_, ?_⟩
            · intro e s' h
              exact Res.noConfusion h
            · intro v s' h hpq
              injection h with h1 h2
              rw [← h2]
              show lookupStr (setKey (popEnv s3).cache path
                (s3.stack.head?.getD env, ns3)) q = none
              rw [lookupStr_setKey_ne _ path q _ hpq, popEnv_cache]
              exact hpres3

/-- **C5, amended.**  Any error during processing propagates uncaught
out of `process`, and the failing call itself caches nothing for its
path: for every path that is never named as an include target (by an
`include_defs` statement or an implicit include), a failed evaluation
leaves the cache without an entry for that path, so it remains eligible
for re-attempt.  The all-or-nothing guarantee does not extend to build
files that are themselves include targets: such a path can be left
cached (under its include evaluation) by a failed run, as
`claim_C5_cex` shows. -/
theorem claim_C5 :
    (∀ (prog : Program) (fuel : Nat) (path : String) (s : PState)
       (e : BuckError) (s' : PState),
       processPath prog fuel
         (buildCtxFor prog.root (pjoin prog.root path))
         (pjoin prog.root path) prog.implicit_includes s =
           Res.err e s' →
       process prog fuel path s = Res.err e s') ∧
    (∀ (prog : Program) (fuel : Nat) (path : String) (s : PState)
       (e : BuckError) (s' : PState),
       ¬ IncTarget prog (pjoin prog.root path) →
       lookupStr s.cache (pjoin prog.root path) = none →
       process prog fuel path s = Res.err e s' →
       lookupStr s'.cache (pjoin prog.root path) = none) := by
  refine ⟨?_, ?_⟩
  · intro prog fuel path s e s' h
    simp only [process]
    rw [h]
  · intro prog fuel path s e s' hq h0 h
    have hp : processPath prog fuel
        (buildCtxFor prog.root (pjoin prog.root path))
        (pjoin prog.root path) prog.implicit_includes s =
          Res.err e s' := by
      simp only [process] at h
      cases hpp : processPath prog fuel
          (buildCtxFor prog.root (pjoin prog.root path))
          (pjoin prog.root path) prog.implicit_includes s with
      | err e1 s1 =>
        rw [hpp] at h
        injection h with h1 h2
        rw [h1, h2]
      | ok pr s1 =>
        rw [hpp] at h
        exact Res.noConfusion h
    exact (processPath_cache_pres prog (pjoin prog.root path) hq fuel
      _ _ _ s (Or.inl rfl) h0).1 e s' hp

/-- **C5, counterexample.**  On `progC5cex` (first implicit include
pulls the build file in via `include_defs`; second implicit include is
missing) the evaluation of `pkg/BUCK` fails with the I/O error, yet
afterwards the cache does contain an entry for `/p/pkg/BUCK` — the one
stored by the nested include evaluation — so the failed file would not
be re-attempted. -/
theorem claim_C5_cex :
    pjoin progC5cex.root "pkg/BUCK" = "/p/pkg/BUCK" ∧
    resErr (process progC5cex 10 "pkg/BUCK" initState) =
      some BuckError.ioError ∧
    (lookupStr (resState (process progC5cex 10 "pkg/BUCK"
        initState)).cache "/p/pkg/BUCK").isSome = true :=
  ⟨rfl, rfl, rfl⟩

/-- Witness for C5 on a concrete failing build file that is not an
include target. -/
theorem claim_C5_witness :
    lookupStr (resState (process progErr 5 "pkg/BUCK" initState)).cache
      (pjoin progErr.root "pkg/BUCK") = none :=
  claim_C5.2 progErr 5 "pkg/BUCK" initState BuckError.evalError
    (resState (process progErr 5 "pkg/BUCK" initState))
    (by
      rintro ⟨name, hsrc, htgt⟩
      rcases hsrc with hmem | ⟨p, stmts, hf, hmem⟩
      · simp [progErr] at hmem
      · by_cases hp : p = "/p/pkg/BUCK"
        · rw [hp] at hf
          have hst : stmts = [Stmt.raiseStmt] := by
            have : some [Stmt.raiseStmt] = some stmts := hf
            injection this with h1
            exact h1.symm
          rw [hst] at hmem
          simp at hmem
        · simp [progErr, hp] at hf)
    rfl
    (by rfl)

theorem add_rule_fields (fields : Rule) (c env' : Ctx)
    (h : add_rule fields c = Except.ok env') :
    env'.type = c.type ∧ env'.base_path = c.base_path ∧
      env'.dirname = c.dirname := by
  unfold add_rule at h
  split at h
  · exact Except.noConfusion h
  · split at h
    · exact Except.noConfusion h
    · split at h
      · exact Except.noConfusion h
      · split at h
        · exact Except.noConfusion h
        · injection h with h1
          rw [← h1]
          exact ⟨rfl, rfl, rfl⟩

theorem add_deps_fields (name : PyVal) (deps : List PyVal) (c env' : Ctx)
    (h : add_deps name deps c = Except.ok env') :
    env'.type = c.type ∧ env'.base_path = c.base_path ∧
      env'.dirname = c.dirname := by
  unfold add_deps at h
  split at h
  · exact Except.noConfusion h
  · split at h
    · exact Except.noConfusion h
    · split at h
      · exact Except.noConfusion h
      · injection h with h1
        rw [← h1]
        exact ⟨rfl, rfl, rfl⟩
      · exact Except.noConfusion h

theorem updateCur_of_stack (f : Ctx → Ctx) (s : PState) (c : Ctx)
    (rest : List Ctx) (h : s.stack = c :: rest) :
    (updateCur f s).stack = f c :: rest ∧
      (updateCur f s).bound = some (f c) := by
  unfold updateCur
  rw [h]
  exact ⟨rfl, rfl⟩

/-- The implicit-include loop mutates only the top frame of the context
stack (preserving its identity fields) and keeps the primitives bound
to the top; an uncaught error from it leaves the stack extended, with
the primitives bound to the stale top. -/
theorem processImplicits_stack
    (doProcess : Ctx → String → List String → PState → Res (Ctx × NS))
    (root : String) (Hd : DPStack doProcess) :
    ∀ (incs : List String) (ns : NS) (t : PState) (c : Ctx)
      (rest : List Ctx),
      t.stack = c :: rest → t.bound = some c →
      (∀ e t', processPath.processImplicits doProcess root incs ns t =
          Res.err e t' →
        ∃ l c', t'.stack = l ++ c' :: rest ∧ c'.type = c.type ∧
          c'.base_path = c.base_path ∧ c'.dirname = c.dirname ∧
          t'.bound = t'.stack.head?) ∧
      (∀ v t', processPath.processImplicits doProcess root incs ns t =
          Res.ok v t' →
        ∃ c', t'.stack = c' :: rest ∧ c'.type = c.type ∧
          c'.base_path = c.base_path ∧ c'.dirname = c.dirname ∧
          t'.bound = some c') := by
  intro incs
  induction incs with
  | nil =>
    intro ns t c rest hst hb
    simp only [processPath.processImplicits]
    refine ⟨?_, ?_⟩
    · intro e t' h
      exact Res.noConfusion h
    · intro v t' h
      injection h with h1 h2
      rw [← h2]
      exact ⟨c, hst, rfl, rfl, rfl, hb⟩
  | cons inc incs' ih =>
    intro ns t c rest hst hb
    simp only [processPath.processImplicits]
    cases hgp : get_include_path root inc with
    | error e0 =>
      simp only
      refine ⟨?_, ?_⟩
      · intro e t' h
        injection h with h1 h2
        rw [← h2]
        exact ⟨[], c, hst, rfl, rfl, rfl, by rw [hb, hst]; rfl⟩
      · intro v t' h
        exact Res.noConfusion h
    | ok T =>
      simp only
      cases hdp : doProcess (includeCtxFor root T) T [] t with
      | err e1 t1 =>
        have hderr := (Hd (includeCtxFor root T) T [] t
          (fun _ => by rw [hb, hst]; rfl)).1 e1 t1 hdp
        simp only
        refine ⟨?_, ?_⟩
        · intro e t' h
          injection h with h1 h2
          rw [← h2]
          rcases hderr with heq | ⟨l, envf, hstk, hbd⟩
          · rw [heq]
            exact ⟨[], c, hst, rfl, rfl, rfl, by rw [hb, hst]; rfl⟩
          · refine ⟨l ++ [envf], c, ?_, rfl, rfl, rfl, hbd⟩
            rw [hstk, hst]
            simp
        · intro v t' h
          exact Res.noConfusion h
      | ok pr t1 =>
        obtain ⟨inner_env, mod⟩ := pr
        have hdok := (Hd (includeCtxFor root T) T [] t
          (fun _ => by rw [hb, hst]; rfl)).2 _ t1 hdp
        have ht1st : t1.stack = c :: rest := by rw [hdok.1, hst]
        have ht1bd : t1.bound = some c := by
          rw [hdok.2 (by rw [hst]; exact (List.cons_ne_nil c rest)), hst]
          rfl
        have h1 := updateCur_of_stack
          (fun c0 => { c0 with includes :=
            (inner_env.includes.foldl addStrSet
              (addStrSet c0.includes T)) }) t1 c rest ht1st
        simp only
        exact ih (merge_globals mod ns) _
          ({ c with includes :=
            (inner_env.includes.foldl addStrSet
              (addStrSet c.includes T)) }) rest h1.1 h1.2

/-- Statement execution mutates only the top frame of the context stack
(preserving its identity fields) and keeps the primitives bound to the
top; an uncaught error from it leaves the stack extended, with the
primitives bound to the stale top, and no pop takes place. -/
theorem execStmts_stack
    (doProcess : Ctx → String → List String → PState → Res (Ctx × NS))
    (prog : Program) (impl : List String) (Hd : DPStack doProcess) :
    ∀ (stmts : List Stmt) (ns : NS) (t : PState) (c : Ctx)
      (rest : List Ctx),
      t.stack = c :: rest → t.bound = some c →
      (∀ e t', processPath.execStmts doProcess prog impl stmts ns t =
          Res.err e t' →
        ∃ l c', t'.stack = l ++ c' :: rest ∧ c'.type = c.type ∧
          c'.base_path = c.base_path ∧ c'.dirname = c.dirname ∧
          t'.bound = t'.stack.head?) ∧
      (∀ v t', processPath.execStmts doProcess prog impl stmts ns t =
          Res.ok v t' →
        ∃ c', t'.stack = c' :: rest ∧ c'.type = c.type ∧
          c'.base_path = c.base_path ∧ c'.dirname = c.dirname ∧
          t'.bound = some c') := by
  intro stmts
  induction stmts with
  | nil =>
    intro ns t c rest hst hb
    simp only [processPath.execStmts]
    refine ⟨?_, ?_⟩
    · intro e t' h
      exact Res.noConfusion h
    · intro v t' h
      injection h with h1 h2
      rw [← h2]
      exact ⟨c, hst, rfl, rfl, rfl, hb⟩
  | cons stmt rest0 ih =>
    intro ns t c rest hst hb
    cases stmt with
    | assign x v0 =>
      simp only [processPath.execStmts]
      exact ih (setKey ns x v0) t c rest hst hb
    | raiseStmt =>
      simp only [processPath.execStmts]
      refine ⟨?_, ?_⟩
      · intro e t' h
        injection h with h1 h2
        rw [← h2]
        exact ⟨[], c, hst, rfl, rfl, rfl, by rw [hb, hst]; rfl⟩
      · intro v t' h
        exact Res.noConfusion h
    | rule fields =>
      simp only [processPath.execStmts]
      rw [hb]
      simp only
      cases har : add_rule fields c with
      | error e0 =>
        simp only
        refine ⟨?_, ?_⟩
        · intro e t' h
          injection h with h1 h2
          rw [← h2]
          exact ⟨[], c, hst, rfl, rfl, rfl, by rw [hb, hst]; rfl⟩
        · intro v t' h
          exact Res.noConfusion h
      | ok env' =>
        simp only
        have hTB := add_rule_fields fields c env' har
        have h1 := updateCur_of_stack (fun _ => env') t c rest hst
        have hrec := ih ns (updateCur (fun _ => env') t) env' rest
          h1.1 h1.2
        refine ⟨?_, ?_⟩
        · intro e t' h
          obtain ⟨l, c', hstk', ha, hb', hc', hbd'⟩ := hrec.1 e t' h
          exact ⟨l, c', hstk', ha.trans hTB.1, hb'.trans hTB.2.1,
            hc'.trans hTB.2.2, hbd'⟩
        · intro v t' h
          obtain ⟨c', hstk', ha, hb', hc', hbd'⟩ := hrec.2 v t' h
          exact ⟨c', hstk', ha.trans hTB.1, hb'.trans hTB.2.1,
            hc'.trans hTB.2.2, hbd'⟩
    | addDeps name deps =>
      simp only [processPath.execStmts]
      rw [hb]
      simp only
      cases har : add_deps name deps c with
      | error e0 =>
        simp only
        refine ⟨?_, ?_⟩
        · intro e t' h
          injection h with h1 h2
          rw [← h2]
          exact ⟨[], c, hst, rfl, rfl, rfl, by rw [hb, hst]; rfl⟩
        · intro v t' h
          exact Res.noConfusion h
      | ok env' =>
        simp only
        have hTB := add_deps_fields name deps c env' har
        have h1 := updateCur_of_stack (fun _ => env') t c rest hst
        have hrec := ih ns (updateCur (fun _ => env') t) env' rest
          h1.1 h1.2
        refine ⟨?_, ?_⟩
        · intro e t' h
          obtain ⟨l, c', hstk', ha, hb', hc', hbd'⟩ := hrec.1 e t' h
          exact ⟨l, c', hstk', ha.trans hTB.1, hb'.trans hTB.2.1,
            hc'.trans hTB.2.2, hbd'⟩
        · intro v t' h
          obtain ⟨c', hstk', ha, hb', hc', hbd'⟩ := hrec.2 v t' h
          exact ⟨c', hstk', ha.trans hTB.1, hb'.trans hTB.2.1,
            hc'.trans hTB.2.2, hbd'⟩
    | globStmt includes excludes idf =>
      simp only [processPath.execStmts]
      rw [hb]
      simp only
      cases hg : glob_prim (prog.fs c.dirname) includes excludes idf
          prog.globFuel c with
      | error e0 =>
        simp only
        refine ⟨?_, ?_⟩
        · intro e t' h
          injection h with h1 h2
          rw [← h2]
          exact ⟨[], c, hst, rfl, rfl, rfl, by rw [hb, hst]; rfl⟩
        · intro v t' h
          exact Res.noConfusion h
      | ok paths =>
        simp only
        exact ih ns t c rest hst hb
    | includeDefs name =>
      simp only [processPath.execStmts]
      rw [hst]
      simp only [List.head?]
      cases hgp : get_include_path prog.root name with
      | error e0 =>
        simp only
        refine ⟨?_, ?_⟩
        · intro e t' h
          injection h with h1 h2
          rw [← h2]
          exact ⟨[], c, hst, rfl, rfl, rfl, by rw [hb, hst]⟩
        · intro v t' h
          exact Res.noConfusion h
      | ok T =>
        simp only
        cases hdp : doProcess (includeCtxFor prog.root T) T impl t with
        | err e1 t1 =>
          have hderr := (Hd (includeCtxFor prog.root T) T impl t
            (fun _ => by rw [hb, hst]; rfl)).1 e1 t1 hdp
          simp only
          refine ⟨?_, ?_⟩
          · intro e t' h
            injection h with h1 h2
            rw [← h2]
            rcases hderr with heq | ⟨l, envf, hstk, hbd⟩
            · rw [heq]
              exact ⟨[], c, hst, rfl, rfl, rfl, by rw [hb, hst]⟩
            · refine ⟨l ++ [envf], c, ?_, rfl, rfl, rfl, hbd⟩
              rw [hstk, hst]
              simp
          · intro v t' h
            exact Res.noConfusion h
        | ok pr t1 =>
          obtain ⟨inner_env, mod⟩ := pr
          have hdok := (Hd (includeCtxFor prog.root T) T impl t
            (fun _ => by rw [hb, hst]; rfl)).2 _ t1 hdp
          have ht1st : t1.stack = c :: rest := by rw [hdok.1, hst]
          have ht1bd : t1.bound = some c := by
            rw [hdok.2 (by rw [hst]; exact (List.cons_ne_nil c rest)),
              hst]
            rfl
          have h1 := updateCur_of_stack
            (fun c0 => { c0 with includes :=
              (inner_env.includes.foldl addStrSet
                (addStrSet c0.includes T)) }) t1 c rest ht1st
          simp only
          exact ih (merge_globals mod ns) _
            ({ c with includes :=
              (inner_env.includes.foldl addStrSet
                (addStrSet c.includes T)) }) rest h1.1 h1.2

/-- The processor's stack discipline: a successful call restores the
context stack and, when the stack was nonempty, the primitive binding;
a failing call with fuel left leaves the frame pushed for the failed
file on the stack (no pop), with the primitives bound to the stale
top. -/
theorem processPath_stack (prog : Program) :
    ∀ (fuel : Nat) (env : Ctx) (path : String) (impl : List String)
      (s : PState),
      (s.stack ≠ [] → s.bound = s.stack.head?) →
      (∀ e s', processPath prog fuel env path impl s = Res.err e s' →
        (fuel = 0 ∧ s' = s) ∨
        ∃ l envf, s'.stack = l ++ envf :: s.stack ∧
          envf.type = env.type ∧ envf.base_path = env.base_path ∧
          envf.dirname = env.dirname ∧ s'.bound = s'.stack.head?) ∧
      (∀ v s', processPath prog fuel env path impl s = Res.ok v s' →
        s'.stack = s.stack ∧
          (s.stack ≠ [] → s'.bound = s.stack.head?)) := by
  intro fuel
  induction fuel with
  | zero =>
    intro env path impl s hsync
    simp only [processPath]
    refine ⟨?_, ?_⟩
    · intro e s' h
      injection h with h1 h2
      exact Or.inl ⟨by trivial, h2.symm⟩
    · intro v s' h
      exact Res.noConfusion h
  | succ n ih =>
    intro env path impl s hsync
    have Hd : DPStack (processPath prog n) := by
      intro env' r impl' t hsy
      have hcl := ih env' r impl' t hsy
      refine ⟨?_, hcl.2⟩
      intro e t' h
      rcases hcl.1 e t' h with ⟨_, heq⟩ | ⟨l, envf, hstk, _, _, _, hbd⟩
      · exact Or.inl heq
      · exact Or.inr ⟨l, envf, hstk, hbd⟩
    simp only [processPath]
    cases hc : lookupStr s.cache path with
    | some cached =>
      simp only
      refine ⟨?_, ?_⟩
      · intro e s' h
        exact Res.noConfusion h
      · intro v s' h
        injection h with h1 h2
        rw [← h2]
        exact ⟨rfl, hsync⟩
    | none =>
      simp only
      cases him : processPath.processImplicits (processPath prog n)
          prog.root impl [] (pushEnv env s) with
      | err e2 s2 =>
        obtain ⟨l, c', hstk, h1, h2, h3, hbd⟩ :=
          (processImplicits_stack _ prog.root Hd impl []
            (pushEnv env s) env s.stack rfl rfl).1 e2 s2 him
        simp only
        refine ⟨?_, ?_⟩
        · intro e s' h
          injection h with he hs'
          rw [← hs']
          exact Or.inr ⟨l, c', hstk, h1, h2, h3, hbd⟩
        · intro v s' h
          exact Res.noConfusion h
      | ok ns0 s2 =>
        obtain ⟨c2, hstk2, h1, h2, h3, hbd2⟩ :=
          (processImplicits_stack _ prog.root Hd impl []
            (pushEnv env s) env s.stack rfl rfl).2 _ s2 him
        simp only
        cases hf : prog.files path with
        | none =>
          simp only
          refine ⟨?_, ?_⟩
          · intro e s' h
            injection h with he hs'
            rw [← hs']
            exact Or.inr ⟨[], c2, by rw [hstk2]; rfl, h1, h2, h3,
              by rw [hbd2, hstk2]; rfl⟩
          · intro v s' h
            exact Res.noConfusion h
        | some stmts =>
          simp only
          have hes := execStmts_stack _ prog impl Hd stmts ns0
            { s2 with trace := s2.trace ++ [path] } c2 s.stack
            hstk2 hbd2
          cases hex : processPath.execStmts (processPath prog n) prog
              impl stmts ns0 { s2 with trace := s2.trace ++ [path] } with
          | err e3 s3 =>
            obtain ⟨l, c', hstk', ha, hb', hc', hbd'⟩ :=
              hes.1 e3 s3 hex
            simp only
            refine ⟨?_, ?_⟩
            · intro e s' h
              injection h with he hs'
              rw [← hs']
              exact Or.inr ⟨l, c', hstk', ha.trans h1, hb'.trans h2,
                hc'.trans h3, hbd'⟩
            · intro v s' h
              exact Res.noConfusion h
          | ok ns3 s3 =>
            obtain ⟨c', hstk', ha, hb', hc', hbd'⟩ := hes.2 _ s3 hex
            simp only
            refine ⟨?_, ?_⟩
            · intro e s' h
              exact Res.noConfusion h
            · intro v s' h
              injection h with hv hs'
              rw [← hs']
              constructor
              · show (popEnv s3).stack = s.stack
                unfold popEnv
                rw [hstk']
              · intro hne
                show (popEnv s3).bound = s.stack.head?
                unfold popEnv
                rw [hstk']
                show (match s.stack with
                      | [] => s3.bound
                      | e :: _ => some e) = s.stack.head?
                cases hss : s.stack with
                | nil => exact absurd hss hne
                | cons c0 r0 => rfl

/-- **C10, confirmed.**  When evaluation fails, the context-stack pop
is skipped: after the error propagates out of `process`, the frame
pushed for the failed build file (its identity fields intact) is still
on the stack above the caller's frames, and the primitives remain
bound to the stale top of the stack.  Concretely, after the
duplicate-rule failure of `progDup` the stack still holds the
half-built context with the first rule registered, and the primitives'
binding is that same stale context. -/
theorem claim_C10 :
    (∀ (prog : Program) (fuel : Nat) (path : String) (s : PState)
       (e : BuckError) (s' : PState),
       (s.stack ≠ [] → s.bound = s.stack.head?) →
       process prog (fuel + 1) path s = Res.err e s' →
       ∃ l envf, s'.stack = l ++ envf :: s.stack ∧
         envf.type = CtxType.buildFile ∧
         envf.base_path =
           (buildCtxFor prog.root (pjoin prog.root path)).base_path ∧
         envf.dirname =
           (buildCtxFor prog.root (pjoin prog.root path)).dirname ∧
         s'.bound = s'.stack.head?) ∧
    (resState (process progDup 5 "pkg/BUCK" initState)).stack =
      [⟨CtxType.buildFile, "pkg", "/p/pkg", [],
        [(PyVal.str "a",
          [("name", PyVal.str "a"),
           ("buck.base_path", PyVal.str "pkg")])]⟩] ∧
    (resState (process progDup 5 "pkg/BUCK" initState)).bound =
      some ⟨CtxType.buildFile, "pkg", "/p/pkg", [],
        [(PyVal.str "a",
          [("name", PyVal.str "a"),
           ("buck.base_path", PyVal.str "pkg")])]⟩ ∧
    resErr (process progDup 5 "pkg/BUCK" initState) =
      some BuckError.duplicateRule := by
  refine ⟨?_, rfl, rfl, rfl⟩
  intro prog fuel path s e s' hsync h
  have hp : processPath prog (fuel + 1)
      (buildCtxFor prog.root (pjoin prog.root path))
      (pjoin prog.root path) prog.implicit_includes s =
        Res.err e s' := by
    simp only [process] at h
    cases hpp : processPath prog (fuel + 1)
        (buildCtxFor prog.root (pjoin prog.root path))
        (pjoin prog.root path) prog.implicit_includes s with
    | err e1 s1 =>
      rw [hpp] at h
      injection h with h1 h2
      rw [h1, h2]
    | ok pr s1 =>
      rw [hpp] at h
      exact Res.noConfusion h
  rcases (processPath_stack prog (fuel + 1)
      (buildCtxFor prog.root (pjoin prog.root path))
      (pjoin prog.root path) prog.implicit_includes s hsync).1 e s' hp
    with ⟨hzero, _⟩ | ⟨l, envf, hstk, h1, h2, h3, hbd⟩
  · exact absurd hzero (Nat.succ_ne_zero fuel)
  · exact ⟨l, envf, hstk, h1, h2, h3, hbd⟩

/-- Witness for C10 on the concrete failing build file `progErr`. -/
theorem claim_C10_witness :
    ∃ l envf,
      (resState (process progErr 5 "pkg/BUCK" initState)).stack =
        l ++ envf :: initState.stack ∧
      envf.type = CtxType.buildFile ∧
      envf.base_path =
        (buildCtxFor progErr.root
          (pjoin progErr.root "pkg/BUCK")).base_path ∧
      envf.dirname =
        (buildCtxFor progErr.root
          (pjoin progErr.root "pkg/BUCK")).dirname ∧
      (resState (process progErr 5 "pkg/BUCK" initState)).bound =
        (resState (process progErr 5 "pkg/BUCK" initState)).stack.head? :=
  claim_C10.1 progErr 4 "pkg/BUCK" initState BuckError.evalError
    (resState (process progErr 5 "pkg/BUCK" initState))
    (fun h => absurd rfl h)
    (by rfl)

/-- Witness for the cache-hit clause of C1 on a concrete cached
state. -/
theorem claim_C1_witness :
    processPath progMem 1 (IncludeContext "x" "") "/x" []
      ⟨[("/x", (IncludeContext "x" "", []))], [], none, []⟩ =
      Res.ok (IncludeContext "x" "", [])
        ⟨[("/x", (IncludeContext "x" "", []))], [], none, []⟩ :=
  claim_C1.1 progMem 0 (IncludeContext "x" "") "/x" []
    ⟨[("/x", (IncludeContext "x" "", []))], [], none, []⟩
    (IncludeContext "x" "", []) rfl

end Buck
